import Mathlib

/-! RobotWriter: text-to-G-code layout and stroke-font loader

Shallow embedding of the two C programs

* `src/RobotWriter6SkeletonCode/main.c` (namespace `Skeleton`), and
* `src/RobotWriter/RobotWriter6SkeletonCode/main.c` (namespace `Refactored`).

Modelling conventions.

* In the font table and the layout, C `float` values are exact rationals (`ℚ`);
  the `%.2f` rendering of a coordinate is not modelled, a move carries the exact
  coordinate. The height entered by the user and its division by 18 are modelled
  on binary32 values (`CFloat`).
* A C string is the list of its `char` values before the terminating NUL,
  each converted to `int` as in `int charIndex = word[i]`.
* A fixed-size C array is a function on `Nat`; every read and write goes
  through a bounds-checked accessor, and an access outside the array
  (undefined behaviour in C) makes the run return `none`.
* One call of `SendCommands` is one `Buffer`: the list of the instruction
  lines that the format string puts in the buffer, in order.
-/

namespace RobotWriter

/-! ## Constants and data model (identical in both files, lines 8-21) -/

/-- Maximum strokes per character (`#define MAX_STROKES 50`). -/
abbrev MAX_STROKES : Nat := 50

/-- Maximum ASCII characters (`#define MAX_CHARACTERS 128`). -/
abbrev MAX_CHARACTERS : Nat := 128

/-- Maximum width of each line in mm (`#define LINE_WIDTH 100.0f`). -/
def LINE_WIDTH : ℚ := 100

/-- Space between letters in mm (`#define CHARACTER_SPACING 0.5f`). -/
def CHARACTER_SPACING : ℚ := 1 / 2

/-- Additional space between words in mm (`#define WORD_SPACING 7.0f`). -/
def WORD_SPACING : ℚ := 7

/-- Stroke data of one character (`struct FontChar`). The three arrays have
`MAX_STROKES` slots; only indices below `MAX_STROKES` belong to the array. -/
structure FontChar where
  asciiCode : Int
  strokeCount : Int
  x : Nat → ℚ
  y : Nat → ℚ
  draw : Nat → Int

/-- The zero-initialised glyph of `FontChar fontDataArray[MAX_CHARACTERS] = {0}`. -/
def FontChar.zero : FontChar :=
  { asciiCode := 0, strokeCount := 0, x := fun _ => 0, y := fun _ => 0, draw := fun _ => 0 }

/-- The font table `FontChar fontDataArray[MAX_CHARACTERS]`; only indices below
`MAX_CHARACTERS` belong to the array. -/
abbrev FontTable := Nat → FontChar

/-- Read of slot `i` of a stroke array of `MAX_STROKES` slots; `none` when the
index is outside the array. -/
def readSlot {α : Type} (a : Nat → α) (i : Int) : Option α :=
  if 0 ≤ i ∧ i < MAX_STROKES then some (a i.toNat) else none

/-- Read of `fontDataArray[charIndex]`; `none` when the index is outside the table. -/
def fontAt (font : FontTable) (charIndex : Int) : Option FontChar :=
  if 0 ≤ charIndex ∧ charIndex < MAX_CHARACTERS then some (font charIndex.toNat) else none

/-- One instruction line of the emitted protocol: `S<v>` or `G<k> X<x> Y<y>`. -/
inductive Instr where
  | S (v : Nat)
  | G (k : Nat) (x y : ℚ)
  deriving DecidableEq, Repr

/-- The content of one buffer handed to `SendCommands`: its lines in order. -/
abbrev Buffer := List Instr

/-- The layout cursor: the local variables `x_offset` and `y_offset`. -/
structure Cursor where
  x_offset : ℚ
  y_offset : ℚ
  deriving DecidableEq, Repr

/-- A C string held in `char word[100]` after `fscanf(file, "%s", word)`, or a
token of the text file: its `char` values. -/
abbrev Word := List Int

/-- The buffer written by the stroke body, lines 173-177 (Skeleton) and
140-144 (Refactored): `"S1000\nG1 X%.2f Y%.2f\n"` when `pen == 1`, otherwise
`"S0\nG0 X%.2f Y%.2f\n"`. -/
def strokeBuffer (pen : Int) (x y : ℚ) : Buffer :=
  if pen = 1 then [Instr.S 1000, Instr.G 1 x y] else [Instr.S 0, Instr.G 0 x y]

/-- The final buffer `"S0\nG0 X0.00 Y0.00\n"`. -/
def finalGcode : Buffer := [Instr.S 0, Instr.G 0 0 0]

/-- One iteration of the stroke loop at index `j`: reads `x[j]`, `y[j]`,
`draw[j]` and builds the buffer that is sent. -/
def strokeAt (currentChar : FontChar) (scalingFactor : ℚ) (cur : Cursor) (j : Nat) :
    Option Buffer := do
  let xj ← readSlot currentChar.x j
  let yj ← readSlot currentChar.y j
  let pen ← readSlot currentChar.draw j
  pure (strokeBuffer pen (xj * scalingFactor + cur.x_offset) (yj * scalingFactor + cur.y_offset))

/-- The loop `for (int j = 0; j < currentChar.strokeCount; j++)`, run from index
`j` with `n` iterations left; returns the buffers sent, in order. -/
def strokeLoop (currentChar : FontChar) (scalingFactor : ℚ) (cur : Cursor) :
    Nat → Nat → Option (List Buffer)
  | 0, _ => some []
  | n + 1, j => do
    let b ← strokeAt currentChar scalingFactor cur j
    let rest ← strokeLoop currentChar scalingFactor cur n (j + 1)
    pure (b :: rest)

/-- The read `currentChar.x[currentChar.strokeCount - 1]` used as the advance
width of a glyph (Skeleton lines 154 and 180, Refactored line 128). -/
def lastX (g : FontChar) : Option ℚ :=
  readSlot g.x (g.strokeCount - 1)

namespace Skeleton

/-- The width loop, lines 151-156: accumulates into `wordWidth`. -/
def wordWidthLoop (font : FontTable) (scalingFactor : ℚ) : Word → ℚ → Option ℚ
  | [], wordWidth => some wordWidth
  | charIndex :: rest, wordWidth => do
    let g ← fontAt font charIndex
    let a ← lastX g
    wordWidthLoop font scalingFactor rest
      (wordWidth + a * scalingFactor + CHARACTER_SPACING * scalingFactor)

/-- The wrap test, lines 159-162. -/
def wrapCheck (scalingFactor : ℚ) (cur : Cursor) (wordWidth : ℚ) : Cursor :=
  if cur.x_offset + wordWidth > LINE_WIDTH then
    { x_offset := 0, y_offset := cur.y_offset - (scalingFactor * 18 + 5) }
  else cur

/-- The character loop, lines 165-181: sends the strokes of each character and
advances `x_offset`. -/
def charLoop (font : FontTable) (scalingFactor : ℚ) : Word → Cursor →
    Option (List Buffer × Cursor)
  | [], cur => some ([], cur)
  | charIndex :: rest, cur => do
    let currentChar ← fontAt font charIndex
    let out ← strokeLoop currentChar scalingFactor cur currentChar.strokeCount.toNat 0
    let a ← lastX currentChar
    let r ← charLoop font scalingFactor rest
      { cur with x_offset := cur.x_offset + (a + CHARACTER_SPACING) * scalingFactor }
    pure (out ++ r.1, r.2)

/-- The body of the `while (fscanf ...)` loop for one token, lines 146-182. The
length test of line 146 is modelled as written, on the string held in `word`;
the write of the token into `char word[100]` by `fscanf` is `fscanfWord`. -/
def wordBody (font : FontTable) (scalingFactor : ℚ) (word : Word) (cur : Cursor) :
    Option (List Buffer × Cursor) :=
  if word.length ≥ 100 then some ([], cur)
  else do
    let wordWidth ← wordWidthLoop font scalingFactor word 0
    let r ← charLoop font scalingFactor word (wrapCheck scalingFactor cur wordWidth)
    pure (r.1, { r.2 with x_offset := r.2.x_offset + WORD_SPACING * scalingFactor })

/-- The `while (fscanf(file, "%s", word) != EOF)` loop, lines 145-183. -/
def wordsLoop (font : FontTable) (scalingFactor : ℚ) : List Word → Cursor →
    Option (List Buffer × Cursor)
  | [], cur => some ([], cur)
  | word :: rest, cur => do
    let r₁ ← wordBody font scalingFactor word cur
    let r₂ ← wordsLoop font scalingFactor rest r₁.2
    pure (r₁.1 ++ r₂.1, r₂.2)

/-- The initial cursor of line 143. -/
def startCursor (scalingFactor : ℚ) : Cursor :=
  { x_offset := 0, y_offset := -(scalingFactor * 18 + 5) }

/-- `generateGCodeForText`, lines 135-191. `text` is `none` when `fopen`
fails, otherwise the successive strings held in `word`, one per `fscanf`; the
result is the list of buffers sent. -/
def generateGCodeForText (font : FontTable) (text : Option (List Word))
    (scalingFactor : ℚ) : Option (List Buffer) :=
  match text with
  | none => some []
  | some words => do
    let r ← wordsLoop font scalingFactor words (startCursor scalingFactor)
    pure (r.1 ++ [finalGcode])

end Skeleton

namespace Refactored

/-- `processCharacterCoordinates`, lines 134-147: the stroke loop of one character. -/
def processCharacterCoordinates (currentChar : FontChar) (cur : Cursor) (scalingFactor : ℚ) :
    Option (List Buffer) :=
  strokeLoop currentChar scalingFactor cur currentChar.strokeCount.toNat 0

/-- The `for` loop of `generateWordGCode`, lines 124-129. -/
def wordChars (font : FontTable) (scalingFactor : ℚ) : Word → Cursor →
    Option (List Buffer × Cursor)
  | [], cur => some ([], cur)
  | charIndex :: rest, cur => do
    let currentChar ← fontAt font charIndex
    let out ← processCharacterCoordinates currentChar cur scalingFactor
    let a ← lastX currentChar
    let r ← wordChars font scalingFactor rest
      { cur with x_offset := cur.x_offset + (a + CHARACTER_SPACING) * scalingFactor }
    pure (out ++ r.1, r.2)

/-- `generateWordGCode`, lines 123-131. -/
def generateWordGCode (font : FontTable) (word : Word) (cur : Cursor) (scalingFactor : ℚ) :
    Option (List Buffer × Cursor) := do
  let r ← wordChars font scalingFactor word cur
  pure (r.1, { r.2 with x_offset := r.2.x_offset + WORD_SPACING * scalingFactor })

/-- The `while (fscanf(file, "%s", word) != EOF)` loop, lines 105-112, with the
length test of line 106 modelled as written, on the string held in `word`; the
write of the token into `char word[100]` by `fscanf` is `fscanfWord`. -/
def wordsLoop (font : FontTable) (scalingFactor : ℚ) : List Word → Cursor →
    Option (List Buffer × Cursor)
  | [], cur => some ([], cur)
  | word :: rest, cur =>
    if word.length ≥ 100 then wordsLoop font scalingFactor rest cur
    else do
      let r₁ ← generateWordGCode font word cur scalingFactor
      let r₂ ← wordsLoop font scalingFactor rest r₁.2
      pure (r₁.1 ++ r₂.1, r₂.2)

/-- The initial cursor of line 103. -/
def startCursor (scalingFactor : ℚ) : Cursor :=
  { x_offset := 0, y_offset := -(scalingFactor * 18 + 5) }

/-- `generateGCodeForText`, lines 95-120. `text` is `none` when `fopen` fails,
otherwise the successive strings held in `word`, one per `fscanf`. -/
def generateGCodeForText (font : FontTable) (text : Option (List Word))
    (scalingFactor : ℚ) : Option (List Buffer) :=
  match text with
  | none => some []
  | some words => do
    let r ← wordsLoop font scalingFactor words (startCursor scalingFactor)
    pure (r.1 ++ [finalGcode])

end Refactored

/-! ## Description of a layout run

The functions below describe a run on which no array is read out of bounds:
which glyph is placed at which cursor, and which buffers its strokes give. -/

/-- A glyph whose stroke count lies in `1..MAX_STROKES`: the stroke loop and the
read of `x[strokeCount - 1]` stay inside the arrays. -/
def GlyphOK (g : FontChar) : Prop :=
  1 ≤ g.strokeCount ∧ g.strokeCount ≤ MAX_STROKES

/-- Every character of the word indexes the font table inside its bounds, at a
glyph satisfying `GlyphOK`. -/
def WordOK (font : FontTable) (w : Word) : Prop :=
  ∀ c ∈ w, 0 ≤ c ∧ c < (MAX_CHARACTERS : Int) ∧ GlyphOK (font c.toNat)

/-- Every token that passes the length test is `WordOK`. -/
def TextOK (font : FontTable) (words : List Word) : Prop :=
  ∀ w ∈ words, w.length < 100 → WordOK font w

/-- Advance width of a glyph: the X coordinate of its final stroke. -/
def advance (g : FontChar) : ℚ := g.x (g.strokeCount - 1).toNat

/-- Sum over the characters of a word of `(advance + CHARACTER_SPACING) * scale`. -/
def wordAdvance (font : FontTable) (s : ℚ) (w : Word) : ℚ :=
  (w.map (fun c => (advance (font c.toNat) + CHARACTER_SPACING) * s)).sum

/-- One buffer per stroke of the glyph, in declared order, at the cursor `cur`:
stroke `j` goes to `(x[j] * s + cur.x_offset, y[j] * s + cur.y_offset)`. -/
def glyphBuffers (g : FontChar) (s : ℚ) (cur : Cursor) : List Buffer :=
  (List.range g.strokeCount.toNat).map
    (fun j => strokeBuffer (g.draw j) (g.x j * s + cur.x_offset) (g.y j * s + cur.y_offset))

/-- The characters of a word with the cursor at which each one is placed. -/
def charPlacements (font : FontTable) (s : ℚ) : Word → Cursor → List (FontChar × Cursor)
  | [], _ => []
  | c :: rest, cur =>
    (font c.toNat, cur) :: charPlacements font s rest
      { cur with x_offset := cur.x_offset + (advance (font c.toNat) + CHARACTER_SPACING) * s }

/-- Cursor after a word placed at `cur`: its characters and the word gap. -/
def afterWord (font : FontTable) (s : ℚ) (w : Word) (cur : Cursor) : Cursor :=
  { cur with x_offset := cur.x_offset + wordAdvance font s w + WORD_SPACING * s }

/-- The characters of a text in word order then character order, each with the
cursor at which the layout of `Skeleton` places it. -/
def Skeleton.placements (font : FontTable) (s : ℚ) : List Word → Cursor →
    List (FontChar × Cursor)
  | [], _ => []
  | w :: rest, cur =>
    if w.length ≥ 100 then Skeleton.placements font s rest cur
    else
      charPlacements font s w (Skeleton.wrapCheck s cur (wordAdvance font s w)) ++
        Skeleton.placements font s rest
          (afterWord font s w (Skeleton.wrapCheck s cur (wordAdvance font s w)))

/-- The characters of a text with the cursor at which the layout of `Refactored`
places each one. -/
def Refactored.placements (font : FontTable) (s : ℚ) : List Word → Cursor →
    List (FontChar × Cursor)
  | [], _ => []
  | w :: rest, cur =>
    if w.length ≥ 100 then Refactored.placements font s rest cur
    else charPlacements font s w cur ++ Refactored.placements font s rest (afterWord font s w cur)

/-- Cursor at the end of the word loop of `Skeleton`. -/
def Skeleton.endCursor (font : FontTable) (s : ℚ) : List Word → Cursor → Cursor
  | [], cur => cur
  | w :: rest, cur =>
    if w.length ≥ 100 then Skeleton.endCursor font s rest cur
    else Skeleton.endCursor font s rest
      (afterWord font s w (Skeleton.wrapCheck s cur (wordAdvance font s w)))

/-- Cursor at the end of the word loop of `Refactored`. -/
def Refactored.endCursor (font : FontTable) (s : ℚ) : List Word → Cursor → Cursor
  | [], cur => cur
  | w :: rest, cur =>
    if w.length ≥ 100 then Refactored.endCursor font s rest cur
    else Refactored.endCursor font s rest (afterWord font s w cur)

/-- Number of strokes of the characters of the tokens that pass the length test. -/
def strokeTotal (font : FontTable) (words : List Word) : Nat :=
  ((words.filter (fun w => decide (w.length < 100))).map
    (fun w => (w.map (fun c => (font c.toNat).strokeCount.toNat)).sum)).sum

/-! ## Font loader (`readFontData`, the same text in both files)

Skeleton lines 95-132, Refactored lines 54-92. -/

/-- What `readFontData` observes of one line returned by `fgets`:
* `header code count`: the line begins with `999` and
  `sscanf(line, "999 %d %d", ...)` assigns 2 items;
* `badHeader`: the line begins with `999` and the `sscanf` assigns fewer than 2;
* `stroke x y pen`: the line does not begin with `999` and
  `sscanf(line, "%f %f %d", ...)` assigns 3 items;
* `other`: the line does not begin with `999` and that `sscanf` assigns fewer than 3. -/
inductive Line where
  | header (code count : Int)
  | badHeader
  | stroke (x y : ℚ) (pen : Int)
  | other

/-- Write of slot `i` of a stroke array of `MAX_STROKES` slots; `none` when the
index is outside the array. -/
def writeSlot {α : Type} (a : Nat → α) (i : Int) (v : α) : Option (Nat → α) :=
  if 0 ≤ i ∧ i < MAX_STROKES then some (Function.update a i.toNat v) else none

/-- Write of `fontDataArray[i]`; `none` when the index is outside the table. -/
def writeFont (font : FontTable) (i : Int) (g : FontChar) : Option FontTable :=
  if 0 ≤ i ∧ i < MAX_CHARACTERS then some (Function.update font i.toNat g) else none

/-- The `while (fgets(line, sizeof(line), file))` loop with the locals
`currentChar` and `numStrokes`; the result is the returned `int` and the table. -/
def readLoop : List Line → FontTable → Int → Int → Option (Int × FontTable)
  | [], font, _, _ => some (1, font)
  | Line.header code count :: rest, font, _, _ => do
    let g ← fontAt font code
    let font' ← writeFont font code { g with asciiCode := code, strokeCount := count }
    readLoop rest font' code count
  | Line.badHeader :: _, font, _, _ => some (0, font)
  | Line.stroke x y pen :: rest, font, currentChar, numStrokes =>
    if currentChar ≠ -1 ∧ numStrokes > 0 then do
      let g ← fontAt font currentChar
      let xs ← writeSlot g.x (g.strokeCount - numStrokes) x
      let ys ← writeSlot g.y (g.strokeCount - numStrokes) y
      let ds ← writeSlot g.draw (g.strokeCount - numStrokes) pen
      let font' ← writeFont font currentChar { g with x := xs, y := ys, draw := ds }
      readLoop rest font' currentChar (numStrokes - 1)
    else readLoop rest font currentChar numStrokes
  | Line.other :: rest, font, currentChar, numStrokes =>
    if currentChar ≠ -1 ∧ numStrokes > 0 then some (0, font)
    else readLoop rest font currentChar numStrokes

/-- `readFontData`. `file` is `none` when `fopen` fails, otherwise the lines of
the file; `fontDataArray` is the table passed in by the caller. -/
def readFontData (file : Option (List Line)) (fontDataArray : FontTable) :
    Option (Int × FontTable) :=
  match file with
  | none => some (0, fontDataArray)
  | some lines => readLoop lines fontDataArray (-1) 0

/-! ## Font sources as sequences of blocks -/

/-- One stroke record `x y pen`. -/
structure Stroke where
  x : ℚ
  y : ℚ
  pen : Int
  deriving DecidableEq, Repr

/-- One block of a font source: the header `999 code count` followed by its
stroke records, `count` being their number. -/
structure Block where
  code : Int
  strokes : List Stroke

/-- The lines of a block: its header, then one line per stroke record. -/
def Block.lines (b : Block) : List Line :=
  Line.header b.code b.strokes.length :: b.strokes.map (fun t => Line.stroke t.x t.y t.pen)

/-- The font source made of the given blocks in order. -/
def fontSource (blocks : List Block) : List Line :=
  blocks.flatMap Block.lines

/-- A block of a valid source: `0 ≤ code ≤ 127` and `count ≤ 50`. -/
def ValidBlock (b : Block) : Prop :=
  0 ≤ b.code ∧ b.code ≤ 127 ∧ b.strokes.length ≤ MAX_STROKES

/-- The stroke records of a loaded glyph in order: slots `0 .. strokeCount - 1`. -/
def glyphStrokes (g : FontChar) : List Stroke :=
  (List.range g.strokeCount.toNat).map (fun i => { x := g.x i, y := g.y i, pen := g.draw i })

/-- The glyph `g` after the records `ts` are stored in the slots `start`,
`start + 1`, ... in order. -/
def storeStrokes (g : FontChar) : Nat → List Stroke → FontChar
  | _, [] => g
  | start, t :: ts =>
    storeStrokes
      { g with x := Function.update g.x start t.x, y := Function.update g.y start t.y,
               draw := Function.update g.draw start t.pen } (start + 1) ts

/-- The table after one block is loaded into it. -/
def loadBlock (font : FontTable) (b : Block) : FontTable :=
  Function.update font b.code.toNat
    (storeStrokes { font b.code.toNat with asciiCode := b.code, strokeCount := b.strokes.length }
      0 b.strokes)

/-! ## Reading the tokens of the text file into `char word[100]` -/

/-- The write done by `fscanf(file, "%s", word)` into `char word[100]` (Skeleton
lines 142 and 145, Refactored lines 102 and 105) for one token: its characters
and the terminating NUL, `token.length + 1` bytes from index 0. The result is
`none` when these bytes do not fit in the 100 bytes of the array, otherwise the
string then held in `word`, which is the token. -/
def fscanfWord (token : Word) : Option Word :=
  if token.length + 1 ≤ 100 then some token else none

/-- The successive strings held in `word` for the tokens of a file, in order. -/
def fscanfWords : List Word → Option (List Word)
  | [] => some []
  | token :: rest => do
    let word ← fscanfWord token
    let words ← fscanfWords rest
    pure (word :: words)

/-- `Skeleton.generateGCodeForText` on a text file given by its tokens (`none`
when `fopen` fails): every token goes through `fscanfWord` before the loop body. -/
def Skeleton.generateGCodeForTokens (font : FontTable) (file : Option (List Word))
    (scalingFactor : ℚ) : Option (List Buffer) :=
  match file with
  | none => some []
  | some tokens => do
    let words ← fscanfWords tokens
    Skeleton.generateGCodeForText font (some words) scalingFactor

/-- `Refactored.generateGCodeForText` on a text file given by its tokens (`none`
when `fopen` fails): every token goes through `fscanfWord` before the loop body. -/
def Refactored.generateGCodeForTokens (font : FontTable) (file : Option (List Word))
    (scalingFactor : ℚ) : Option (List Buffer) :=
  match file with
  | none => some []
  | some tokens => do
    let words ← fscanfWords tokens
    Refactored.generateGCodeForText font (some words) scalingFactor

/-! ## C `float` values, height validation and `main` -/

/-- A value of the C type `float` (IEEE 754 binary32): a finite number, an
infinity or a NaN. The sign of a zero is not kept. -/
inductive CFloat where
  | finite (q : ℚ)
  | infinity (negative : Bool)
  | nan

/-- The comparison `a < b` of two `float` values: false when either is a NaN. -/
def CFloat.lt : CFloat → CFloat → Bool
  | CFloat.nan, _ => false
  | _, CFloat.nan => false
  | CFloat.finite a, CFloat.finite b => decide (a < b)
  | CFloat.finite _, CFloat.infinity negative => !negative
  | CFloat.infinity negative, CFloat.finite _ => negative
  | CFloat.infinity a, CFloat.infinity b => a && !b

/-- Rounding of a rational to the nearest integer, ties to the even one. -/
def roundHalfEven (y : ℚ) : Int :=
  if y - ⌊y⌋ < 1 / 2 then ⌊y⌋
  else if 1 / 2 < y - ⌊y⌋ then ⌊y⌋ + 1
  else if ⌊y⌋ % 2 = 0 then ⌊y⌋ else ⌊y⌋ + 1

/-- Search of the binary exponent of `a ≥ 0` from `e` upwards: the first exponent
`e' ≥ e` with `a < 2 ^ (e' + 1)`, at most `fuel` steps above `e`. -/
def binadeFrom : Nat → Int → ℚ → Int
  | 0, e, _ => e
  | fuel + 1, e, a => if a < (2 : ℚ) ^ (e + 1) then e else binadeFrom fuel (e + 1) a

/-- The exponent used by binary32 for the magnitude `a`: the `e` in `-126 .. 127`
with `2 ^ e ≤ a < 2 ^ (e + 1)`, `-126` for the subnormal magnitudes below
`2 ^ -126` and `127` for the magnitudes from `2 ^ 128` on. -/
def exponent32 (a : ℚ) : Int := binadeFrom 253 (-126) a

/-- The `float` nearest to the rational `x` (round to nearest, ties to even, 24
bits of significand): the magnitude is rounded to a multiple of
`2 ^ (exponent - 23)`, and a result of magnitude `2 ^ 128` is an infinity. -/
def roundToFloat (x : ℚ) : CFloat :=
  if (2 : ℚ) ^ (128 : ℤ) ≤
      (roundHalfEven (|x| / (2 : ℚ) ^ (exponent32 |x| - 23)) : ℚ) *
        (2 : ℚ) ^ (exponent32 |x| - 23) then
    CFloat.infinity (decide (x < 0))
  else
    CFloat.finite
      (if x < 0 then
        -((roundHalfEven (|x| / (2 : ℚ) ^ (exponent32 |x| - 23)) : ℚ) *
          (2 : ℚ) ^ (exponent32 |x| - 23))
      else
        (roundHalfEven (|x| / (2 : ℚ) ^ (exponent32 |x| - 23)) : ℚ) *
          (2 : ℚ) ^ (exponent32 |x| - 23))

/-- The quotient `a / b` of two `float` values, rounded to `float`. -/
def CFloat.div : CFloat → CFloat → CFloat
  | CFloat.nan, _ => CFloat.nan
  | _, CFloat.nan => CFloat.nan
  | CFloat.infinity _, CFloat.infinity _ => CFloat.nan
  | CFloat.infinity negative, CFloat.finite d => CFloat.infinity (xor negative (decide (d < 0)))
  | CFloat.finite _, CFloat.infinity _ => CFloat.finite 0
  | CFloat.finite q, CFloat.finite d =>
    if d = 0 then (if q = 0 then CFloat.nan else CFloat.infinity (decide (q < 0)))
    else roundToFloat (q / d)

/-- `validateHeight`, Refactored lines 41-51. `entered` is the `float` stored by
`scanf("%f", scalingFactor)`; the result is the returned `int` and the value of
`*scalingFactor` after the call. -/
def Refactored.validateHeight (entered : CFloat) : Int × CFloat :=
  if CFloat.lt entered (CFloat.finite 4) || CFloat.lt (CFloat.finite 10) entered then
    (0, entered)
  else (1, CFloat.div entered (CFloat.finite 18))

/-- How `main` ends after the height prompt: it returns 1 before
`generateGCodeForText` is called, or it calls
`generateGCodeForText(fontDataArray, textFileName, scalingFactor)` with the loaded
table and the given scaling factor and then returns 0. -/
inductive MainResult where
  | exitNoLayout
  | layout (font : FontTable) (scalingFactor : CFloat)

/-- `main` of Refactored from the height validation on, lines 181-207. `entered`
is the height stored by `scanf`, `fontFile` the lines of `SingleStrokeFont.txt`
(`none` when the file cannot be opened); the table starts zeroed (line 158). The
result is `none` when the font load leaves the arrays. The port handling and the
three commands sent before the prompt (lines 161-179) are not modelled. -/
def Refactored.main (entered : CFloat) (fontFile : Option (List Line)) : Option MainResult :=
  if (Refactored.validateHeight entered).1 = 0 then some MainResult.exitNoLayout
  else
    match readFontData fontFile (fun _ => FontChar.zero) with
    | none => none
    | some (ok, font) =>
      if ok = 0 then some MainResult.exitNoLayout
      else some (MainResult.layout font (Refactored.validateHeight entered).2)

/-- `main` of Skeleton from the height prompt on, lines 62-91, with the inline
range test of line 66 and the division of line 71. The arguments and the result
are those of `Refactored.main`; the port handling and the three commands sent
before the prompt (lines 42-60) are not modelled. -/
def Skeleton.main (entered : CFloat) (fontFile : Option (List Line)) : Option MainResult :=
  if CFloat.lt entered (CFloat.finite 4) || CFloat.lt (CFloat.finite 10) entered then
    some MainResult.exitNoLayout
  else
    match readFontData fontFile (fun _ => FontChar.zero) with
    | none => none
    | some (ok, font) =>
      if ok = 0 then some MainResult.exitNoLayout
      else some (MainResult.layout font (CFloat.div entered (CFloat.finite 18)))

/-! ## Lines and states of the font loader -/

/-- A line that does not begin with `999`: a stroke record or any other line. -/
def Line.plain : Line → Prop
  | Line.stroke _ _ _ => True
  | Line.other => True
  | _ => False

/-- Loop invariant of `readFontData` on the locals `currentChar` and
`numStrokes`: either no header was seen yet, or `currentChar` is a code of the
table and `0 ≤ numStrokes ≤ strokeCount ≤ MAX_STROKES` for its glyph. -/
def LoaderInv (font : FontTable) (currentChar numStrokes : Int) : Prop :=
  (currentChar = -1 ∧ numStrokes = 0) ∨
    (0 ≤ currentChar ∧ currentChar ≤ 127 ∧ 0 ≤ numStrokes ∧
      numStrokes ≤ (font currentChar.toNat).strokeCount ∧
      (font currentChar.toNat).strokeCount ≤ MAX_STROKES)

/-- The table after the stroke write of lines 123-126 at `strokeIndex`. -/
def strokeWrite (font : FontTable) (currentChar : Int) (strokeIndex : Nat) (x y : ℚ)
    (pen : Int) : FontTable :=
  Function.update font currentChar.toNat
    { font currentChar.toNat with
      x := Function.update (font currentChar.toNat).x strokeIndex x,
      y := Function.update (font currentChar.toNat).y strokeIndex y,
      draw := Function.update (font currentChar.toNat).draw strokeIndex pen }

/-- The table after the header write of lines 113-114. -/
def headerWrite (font : FontTable) (code count : Int) : FontTable :=
  Function.update font code.toNat
    { font code.toNat with asciiCode := code, strokeCount := count }

/-- A line of the font file as `fgets(line, sizeof(line), file)` returns it: its
characters without the newline, together with what the two `sscanf` calls of the
loop give on it. A line of the file with more than 254 characters does not fit in
`char line[256]` with its newline and is returned by `fgets` in several pieces,
each of which is then a `FileLine` of its own. `headerScan` is the pair
assigned by `sscanf(line, "999 %d %d", ...)` when it assigns 2 items, and
`strokeScan` the triple assigned by `sscanf(line, "%f %f %d", ...)` when it assigns
3 items; each is `none` otherwise. -/
structure FileLine where
  text : List Char
  headerScan : Option (Int × Int)
  strokeScan : Option (ℚ × ℚ × Int)

/-- The test `strncmp(line, "999", 3) == 0` of Skeleton line 107, Refactored
line 66: the first three characters of the line are `999`. -/
def FileLine.begins999 (l : FileLine) : Bool :=
  decide (l.text.take 3 = ['9', '9', '9'])

/-- What the loop observes of a text line: the branch taken by the `strncmp`
test, then the result of the `sscanf` of that branch. -/
def FileLine.observe (l : FileLine) : Line :=
  if l.begins999 then
    match l.headerScan with
    | some (code, count) => Line.header code count
    | none => Line.badHeader
  else
    match l.strokeScan with
    | some (x, y, pen) => Line.stroke x y pen
    | none => Line.other

/-- `readFontData` on the text lines of the font file (`none` when `fopen` fails). -/
def readFontFile (file : Option (List FileLine)) (fontDataArray : FontTable) :
    Option (Int × FontTable) :=
  readFontData (file.map (fun lines => lines.map FileLine.observe)) fontDataArray

/-- The text of one block of a font source: the code it declares, its header
line, and its stroke records each with the line that holds it. -/
structure FileBlock where
  code : Int
  header : FileLine
  strokes : List (Stroke × FileLine)

/-- The lines of a block of text: the header line, then the stroke lines. -/
def FileBlock.lines (fb : FileBlock) : List FileLine :=
  fb.header :: fb.strokes.map Prod.snd

/-- The stroke records of a block of text, in order. -/
def FileBlock.records (fb : FileBlock) : List Stroke :=
  fb.strokes.map Prod.fst

/-- The block declared by a block of text: its code and its stroke records. -/
def fileBlock_block (fb : FileBlock) : Block :=
  { code := fb.code, strokes := fb.records }

/-- A block of a valid font source: the header line is `999 code count` with
`0 ≤ code ≤ 127`, `count` is the number of stroke lines that follow and is at most
50, and every stroke line reads as `x y pen` for its record. -/
def FileBlock.Valid (fb : FileBlock) : Prop :=
  fb.header.begins999 = true ∧
  fb.header.headerScan = some (fb.code, (fb.strokes.length : Int)) ∧
  0 ≤ fb.code ∧ fb.code ≤ 127 ∧ fb.strokes.length ≤ MAX_STROKES ∧
  ∀ p ∈ fb.strokes, p.2.strokeScan = some (p.1.x, p.1.y, p.1.pen)

/-- Every line of the block has at most 254 characters, so that `fgets` returns
it whole. -/
def FileBlock.LinesWhole (fb : FileBlock) : Prop :=
  fb.header.text.length ≤ 254 ∧ ∀ p ∈ fb.strokes, p.2.text.length ≤ 254

/-- No stroke line of the block begins with the characters `999`. -/
def FileBlock.StrokesClear (fb : FileBlock) : Prop :=
  ∀ p ∈ fb.strokes, p.2.begins999 = false

/-! ## Example lines of a font file -/

/-- The line `999 65 1`. -/
def line_999_65_1 : FileLine :=
  { text := "999 65 1".toList, headerScan := some (65, 1), strokeScan := some (999, 65, 1) }

/-- The line `999 65 2`. -/
def line_999_65_2 : FileLine :=
  { text := "999 65 2".toList, headerScan := some (65, 2), strokeScan := some (999, 65, 2) }

/-- The line `999 65 3`. -/
def line_999_65_3 : FileLine :=
  { text := "999 65 3".toList, headerScan := some (65, 3), strokeScan := some (999, 65, 3) }

/-- The line `999 0 1`: as a stroke line it is the record (999, 0, 1), and the
header `sscanf` reads it as code 0 with 1 stroke. -/
def line_999_0_1 : FileLine :=
  { text := "999 0 1".toList, headerScan := some (0, 1), strokeScan := some (999, 0, 1) }

/-- The line `999.5 0 1`: as a stroke line it is the record (999.5, 0, 1); the
header `sscanf` stops at the `.` and assigns nothing. -/
def line_999p5_0_1 : FileLine :=
  { text := "999.5 0 1".toList, headerScan := none, strokeScan := some (1999 / 2, 0, 1) }

/-- The line `1 2 1`. -/
def line_1_2_1 : FileLine :=
  { text := "1 2 1".toList, headerScan := none, strokeScan := some (1, 2, 1) }

/-- The first 255 characters of the stroke line made of `1 2 1` followed by 300
spaces: what the first `fgets` returns of that line. -/
def line_1_2_1_long_head : FileLine :=
  { text := "1 2 1".toList ++ List.replicate 250 ' ', headerScan := none,
    strokeScan := some (1, 2, 1) }

/-- The remaining 50 spaces of that line: what the second `fgets` returns; the
stroke `sscanf` finds no number in it. -/
def line_long_tail : FileLine :=
  { text := List.replicate 50 ' ', headerScan := none, strokeScan := none }

/-- The line `3 4 0`. -/
def line_3_4_0 : FileLine :=
  { text := "3 4 0".toList, headerScan := none, strokeScan := some (3, 4, 0) }

/-- The line `5 6 1`. -/
def line_5_6_1 : FileLine :=
  { text := "5 6 1".toList, headerScan := none, strokeScan := some (5, 6, 1) }

/-- The line `0 0 0`. -/
def line_0_0_0 : FileLine :=
  { text := "0 0 0".toList, headerScan := none, strokeScan := some (0, 0, 0) }

/-- The line `9 18 1`. -/
def line_9_18_1 : FileLine :=
  { text := "9 18 1".toList, headerScan := none, strokeScan := some (9, 18, 1) }

/-- The line `18 0 1`. -/
def line_18_0_1 : FileLine :=
  { text := "18 0 1".toList, headerScan := none, strokeScan := some (18, 0, 1) }

/-! ## Example fonts -/

/-- Glyph of the letter A used in the examples: strokes (0,0,0), (9,18,1), (18,0,1). -/
def glyphA : FontChar :=
  { asciiCode := 65, strokeCount := 3,
    x := fun j => if j = 0 then 0 else if j = 1 then 9 else if j = 2 then 18 else 0,
    y := fun j => if j = 1 then 18 else 0,
    draw := fun j => if j = 1 then 1 else if j = 2 then 1 else 0 }

/-- Font table holding only the letter A at code 65. -/
def fontA : FontTable := fun c => if c = 65 then glyphA else FontChar.zero

/-- A glyph of two strokes, (0,0,0) and (119.5,18,1): at scale 1/2 one such
character takes (119.5 + 0.5) / 2 = 60 mm. -/
def glyphWide : FontChar :=
  { asciiCode := 87, strokeCount := 2,
    x := fun j => if j = 1 then 239 / 2 else 0,
    y := fun j => if j = 1 then 18 else 0,
    draw := fun j => if j = 1 then 1 else 0 }

/-- Font table holding only `glyphWide`, at code 87. -/
def fontWide : FontTable := fun c => if c = 87 then glyphWide else FontChar.zero

/-! ## Basic facts about the accessors and the stroke loop -/

theorem readSlot_nat {α : Type} (a : Nat → α) (j : Nat) (h : j < MAX_STROKES) :
    readSlot a (j : Int) = some (a j) := by
  have h' : ((j : Int) < 50) := by exact_mod_cast h
  simp [readSlot, h']

theorem strokeAt_eq (g : FontChar) (s : ℚ) (cur : Cursor) (j : Nat) (h : j < MAX_STROKES) :
    strokeAt g s cur j =
      some (strokeBuffer (g.draw j) (g.x j * s + cur.x_offset) (g.y j * s + cur.y_offset)) := by
  simp [strokeAt, readSlot_nat _ j h]

theorem strokeLoop_eq (g : FontChar) (s : ℚ) (cur : Cursor) (n j : Nat)
    (h : j + n ≤ MAX_STROKES) :
    strokeLoop g s cur n j =
      some ((List.range' j n).map
        (fun i => strokeBuffer (g.draw i) (g.x i * s + cur.x_offset) (g.y i * s + cur.y_offset))) := by
  induction n generalizing j with
  | zero => simp [strokeLoop]
  | succ n ih =>
    have hj : j < MAX_STROKES := by omega
    have hrest := ih (j + 1) (by omega)
    simp [strokeLoop, strokeAt_eq g s cur j hj, hrest, List.range'_succ]

theorem strokeLoop_glyph (g : FontChar) (s : ℚ) (cur : Cursor) (h : g.strokeCount ≤ MAX_STROKES) :
    strokeLoop g s cur g.strokeCount.toNat 0 = some (glyphBuffers g s cur) := by
  have hn : 0 + g.strokeCount.toNat ≤ MAX_STROKES := by omega
  rw [strokeLoop_eq g s cur _ 0 hn, glyphBuffers, List.range_eq_range']

theorem lastX_eq (g : FontChar) (h : GlyphOK g) : lastX g = some (advance g) := by
  obtain ⟨h1, h2⟩ := h
  have h3 : g.strokeCount - 1 < 50 := by
    have : g.strokeCount ≤ 50 := by exact_mod_cast h2
    omega
  have h4 : 0 ≤ g.strokeCount - 1 := by omega
  simp [lastX, readSlot, advance, h3, h4]

theorem fontAt_eq (font : FontTable) (c : Int) (h0 : 0 ≤ c) (h1 : c < (MAX_CHARACTERS : Int)) :
    fontAt font c = some (font c.toNat) := by
  have h2 : c < 128 := by simpa using h1
  simp [fontAt, h0, h2]

theorem wordOK_cons {font : FontTable} {c : Int} {w : Word} (h : WordOK font (c :: w)) :
    (0 ≤ c ∧ c < (MAX_CHARACTERS : Int) ∧ GlyphOK (font c.toNat)) ∧ WordOK font w :=
  ⟨h c (List.mem_cons_self c w), fun d hd => h d (List.mem_cons_of_mem c hd)⟩

theorem wordAdvance_nil (font : FontTable) (s : ℚ) : wordAdvance font s [] = 0 := by
  simp [wordAdvance]

theorem wordAdvance_cons (font : FontTable) (s : ℚ) (c : Int) (w : Word) :
    wordAdvance font s (c :: w) =
      (advance (font c.toNat) + CHARACTER_SPACING) * s + wordAdvance font s w := by
  simp [wordAdvance]

/-- On a word that stays inside the arrays, the width loop adds `wordAdvance` to
the accumulator. -/
theorem skel_wordWidthLoop_eq (font : FontTable) (s : ℚ) (w : Word) (acc : ℚ)
    (h : WordOK font w) :
    Skeleton.wordWidthLoop font s w acc = some (acc + wordAdvance font s w) := by
  induction w generalizing acc with
  | nil => simp [Skeleton.wordWidthLoop, wordAdvance_nil]
  | cons c w ih =>
    obtain ⟨⟨h0, h1, hg⟩, hw⟩ := wordOK_cons h
    simp only [Skeleton.wordWidthLoop, fontAt_eq font c h0 h1, lastX_eq _ hg, Option.bind_eq_bind,
      Option.some_bind, ih _ hw, wordAdvance_cons]
    congr 1
    ring

/-- On a word that stays inside the arrays, the character loop sends the buffers
of its placements and advances the cursor by `wordAdvance`. -/
theorem skel_charLoop_eq (font : FontTable) (s : ℚ) (w : Word) (cur : Cursor)
    (h : WordOK font w) :
    Skeleton.charLoop font s w cur =
      some ((charPlacements font s w cur).flatMap (fun p => glyphBuffers p.1 s p.2),
        { cur with x_offset := cur.x_offset + wordAdvance font s w }) := by
  induction w generalizing cur with
  | nil => simp [Skeleton.charLoop, charPlacements, wordAdvance_nil]
  | cons c w ih =>
    obtain ⟨⟨h0, h1, hg⟩, hw⟩ := wordOK_cons h
    simp only [Skeleton.charLoop, fontAt_eq font c h0 h1, lastX_eq _ hg, Option.bind_eq_bind,
      Option.some_bind, strokeLoop_glyph _ s cur hg.2, ih _ hw, wordAdvance_cons, charPlacements,
      List.flatMap_cons, Option.pure_def]
    congr 2
    simp only [Cursor.mk.injEq, and_true]
    ring

theorem refac_wordChars_eq_charLoop (font : FontTable) (s : ℚ) (w : Word) (cur : Cursor) :
    Refactored.wordChars font s w cur = Skeleton.charLoop font s w cur := by
  induction w generalizing cur with
  | nil => rfl
  | cons c w ih =>
    simp only [Refactored.wordChars, Skeleton.charLoop, Refactored.processCharacterCoordinates, ih]

theorem textOK_cons {font : FontTable} {w : Word} {ws : List Word} (h : TextOK font (w :: ws)) :
    (w.length < 100 → WordOK font w) ∧ TextOK font ws :=
  ⟨h w (List.mem_cons_self w ws), fun v hv => h v (List.mem_cons_of_mem w hv)⟩

theorem skel_wordBody_eq (font : FontTable) (s : ℚ) (w : Word) (cur : Cursor)
    (hlen : w.length < 100) (h : WordOK font w) :
    Skeleton.wordBody font s w cur =
      some ((charPlacements font s w (Skeleton.wrapCheck s cur (wordAdvance font s w))).flatMap
          (fun p => glyphBuffers p.1 s p.2),
        afterWord font s w (Skeleton.wrapCheck s cur (wordAdvance font s w))) := by
  have hn : ¬ (w.length ≥ 100) := by omega
  simp only [Skeleton.wordBody, if_neg hn, skel_wordWidthLoop_eq font s w 0 h, zero_add,
    Option.bind_eq_bind, Option.some_bind, skel_charLoop_eq font s w _ h, Option.pure_def,
    afterWord]

theorem skel_wordBody_long (font : FontTable) (s : ℚ) (w : Word) (cur : Cursor)
    (hlen : w.length ≥ 100) : Skeleton.wordBody font s w cur = some ([], cur) := by
  simp [Skeleton.wordBody, hlen]

/-- On a text that stays inside the arrays, the word loop of `Skeleton` sends the
buffers of its placements in order and ends at `Skeleton.endCursor`. -/
theorem skel_wordsLoop_eq (font : FontTable) (s : ℚ) (words : List Word) (cur : Cursor)
    (h : TextOK font words) :
    Skeleton.wordsLoop font s words cur =
      some ((Skeleton.placements font s words cur).flatMap (fun p => glyphBuffers p.1 s p.2),
        Skeleton.endCursor font s words cur) := by
  induction words generalizing cur with
  | nil => simp [Skeleton.wordsLoop, Skeleton.placements, Skeleton.endCursor]
  | cons w ws ih =>
    obtain ⟨hw, hws⟩ := textOK_cons h
    by_cases hlen : w.length ≥ 100
    · simp [Skeleton.wordsLoop, skel_wordBody_long font s w cur hlen, ih _ hws,
        Skeleton.placements, Skeleton.endCursor, hlen]
    · have hlt : w.length < 100 := by omega
      simp [Skeleton.wordsLoop, skel_wordBody_eq font s w cur hlt (hw hlt), ih _ hws,
        Skeleton.placements, Skeleton.endCursor, hlen, List.flatMap_append]

theorem skel_wordsLoop_append (font : FontTable) (s : ℚ) (pre post : List Word) (cur : Cursor) :
    Skeleton.wordsLoop font s (pre ++ post) cur =
      (Skeleton.wordsLoop font s pre cur).bind (fun r₁ =>
        (Skeleton.wordsLoop font s post r₁.2).map (fun r₂ => (r₁.1 ++ r₂.1, r₂.2))) := by
  induction pre generalizing cur with
  | nil =>
    cases hp : Skeleton.wordsLoop font s post cur <;> simp [Skeleton.wordsLoop, hp]
  | cons w ws ih =>
    simp only [List.cons_append, Skeleton.wordsLoop, Option.bind_eq_bind, Option.pure_def]
    cases hb : Skeleton.wordBody font s w cur with
    | none => simp
    | some r =>
      simp only [Option.some_bind, List.append_eq]
      rw [ih r.2]
      cases hws : Skeleton.wordsLoop font s ws r.2 with
      | none => simp
      | some r' =>
        cases hp : Skeleton.wordsLoop font s post r'.2 <;> simp [hp, List.append_assoc]

theorem refac_generateWordGCode_eq (font : FontTable) (s : ℚ) (w : Word) (cur : Cursor)
    (h : WordOK font w) :
    Refactored.generateWordGCode font w cur s =
      some ((charPlacements font s w cur).flatMap (fun p => glyphBuffers p.1 s p.2),
        afterWord font s w cur) := by
  simp only [Refactored.generateWordGCode, refac_wordChars_eq_charLoop,
    skel_charLoop_eq font s w cur h, Option.bind_eq_bind, Option.some_bind, Option.pure_def,
    afterWord]

/-- On a text that stays inside the arrays, the word loop of `Refactored` sends
the buffers of its placements in order and ends at `Refactored.endCursor`. -/
theorem refac_wordsLoop_eq (font : FontTable) (s : ℚ) (words : List Word) (cur : Cursor)
    (h : TextOK font words) :
    Refactored.wordsLoop font s words cur =
      some ((Refactored.placements font s words cur).flatMap (fun p => glyphBuffers p.1 s p.2),
        Refactored.endCursor font s words cur) := by
  induction words generalizing cur with
  | nil => simp [Refactored.wordsLoop, Refactored.placements, Refactored.endCursor]
  | cons w ws ih =>
    obtain ⟨hw, hws⟩ := textOK_cons h
    by_cases hlen : w.length ≥ 100
    · simp [Refactored.wordsLoop, ih _ hws, Refactored.placements, Refactored.endCursor, hlen]
    · have hlt : w.length < 100 := by omega
      simp [Refactored.wordsLoop, refac_generateWordGCode_eq font s w cur (hw hlt), ih _ hws,
        Refactored.placements, Refactored.endCursor, hlen, List.flatMap_append]

/-- A run of `Skeleton` on `pre ++ w :: post`, where the words of `pre` leave the
cursor at `cur` after sending `out`: the accepted word `w` is placed at the cursor
given by the wrap test, right after `out`. -/
theorem skel_run_split (font : FontTable) (s : ℚ) (pre post : List Word) (w : Word)
    (out : List Buffer) (cur : Cursor)
    (hpre : Skeleton.wordsLoop font s pre (Skeleton.startCursor s) = some (out, cur))
    (hlen : w.length < 100) (hword : WordOK font w) :
    Skeleton.generateGCodeForText font (some (pre ++ w :: post)) s =
      (Skeleton.wordsLoop font s post
          (afterWord font s w (Skeleton.wrapCheck s cur (wordAdvance font s w)))).map
        (fun r => out ++
          (charPlacements font s w (Skeleton.wrapCheck s cur (wordAdvance font s w))).flatMap
            (fun p => glyphBuffers p.1 s p.2) ++ r.1 ++ [finalGcode]) := by
  simp only [Skeleton.generateGCodeForText, skel_wordsLoop_append, hpre, Option.some_bind,
    Skeleton.wordsLoop, skel_wordBody_eq font s w cur hlen hword, Option.bind_eq_bind,
    Option.pure_def]
  cases Skeleton.wordsLoop font s post
      (afterWord font s w (Skeleton.wrapCheck s cur (wordAdvance font s w))) <;>
    simp [List.append_assoc]

theorem glyphBuffers_length (g : FontChar) (s : ℚ) (cur : Cursor) :
    (glyphBuffers g s cur).length = g.strokeCount.toNat := by
  simp [glyphBuffers]

theorem charPlacements_length (font : FontTable) (s : ℚ) (w : Word) (cur : Cursor) :
    ((charPlacements font s w cur).flatMap (fun p => glyphBuffers p.1 s p.2)).length =
      (w.map (fun c => (font c.toNat).strokeCount.toNat)).sum := by
  induction w generalizing cur with
  | nil => simp [charPlacements]
  | cons c w ih => simp [charPlacements, glyphBuffers_length, ih]

theorem skel_placements_length (font : FontTable) (s : ℚ) (words : List Word) (cur : Cursor) :
    ((Skeleton.placements font s words cur).flatMap (fun p => glyphBuffers p.1 s p.2)).length =
      strokeTotal font words := by
  induction words generalizing cur with
  | nil => simp [Skeleton.placements, strokeTotal]
  | cons w ws ih =>
    by_cases hlen : w.length ≥ 100
    · have hn : ¬ (w.length < 100) := by omega
      have := ih cur
      simp only [strokeTotal] at this
      simp [Skeleton.placements, hlen, strokeTotal, List.filter_cons, hn, this]
    · have hlt : w.length < 100 := by omega
      have := ih (afterWord font s w (Skeleton.wrapCheck s cur (wordAdvance font s w)))
      simp only [strokeTotal] at this
      rw [Skeleton.placements, if_neg hlen, List.flatMap_append, List.length_append,
        charPlacements_length, this]
      simp [strokeTotal, List.filter_cons, hlt]

theorem refac_placements_length (font : FontTable) (s : ℚ) (words : List Word)
    (cur : Cursor) :
    ((Refactored.placements font s words cur).flatMap (fun p => glyphBuffers p.1 s p.2)).length =
      strokeTotal font words := by
  induction words generalizing cur with
  | nil => simp [Refactored.placements, strokeTotal]
  | cons w ws ih =>
    by_cases hlen : w.length ≥ 100
    · have hn : ¬ (w.length < 100) := by omega
      have := ih cur
      simp only [strokeTotal] at this
      simp [Refactored.placements, hlen, strokeTotal, List.filter_cons, hn, this]
    · have hlt : w.length < 100 := by omega
      have := ih (afterWord font s w cur)
      simp only [strokeTotal] at this
      rw [Refactored.placements, if_neg hlen, List.flatMap_append, List.length_append,
        charPlacements_length, this]
      simp [strokeTotal, List.filter_cons, hlt]

theorem skel_generate_eq (font : FontTable) (s : ℚ) (words : List Word)
    (h : TextOK font words) :
    Skeleton.generateGCodeForText font (some words) s =
      some ((Skeleton.placements font s words (Skeleton.startCursor s)).flatMap
        (fun p => glyphBuffers p.1 s p.2) ++ [finalGcode]) := by
  simp only [Skeleton.generateGCodeForText, skel_wordsLoop_eq font s words _ h,
    Option.bind_eq_bind, Option.some_bind, Option.pure_def]

theorem refac_generate_eq (font : FontTable) (s : ℚ) (words : List Word)
    (h : TextOK font words) :
    Refactored.generateGCodeForText font (some words) s =
      some ((Refactored.placements font s words (Refactored.startCursor s)).flatMap
        (fun p => glyphBuffers p.1 s p.2) ++ [finalGcode]) := by
  simp only [Refactored.generateGCodeForText, refac_wordsLoop_eq font s words _ h,
    Option.bind_eq_bind, Option.some_bind, Option.pure_def]

theorem strokeBuffer_form (pen : Int) (x y : ℚ) :
    strokeBuffer pen x y = [Instr.S 1000, Instr.G 1 x y] ∨
      strokeBuffer pen x y = [Instr.S 0, Instr.G 0 x y] := by
  by_cases h : pen = 1 <;> simp [strokeBuffer, h]

theorem glyphBuffers_mem {g : FontChar} {s : ℚ} {cur : Cursor} {b : Buffer}
    (h : b ∈ glyphBuffers g s cur) :
    ∃ j : Nat, (j : Int) < g.strokeCount ∧
      b = strokeBuffer (g.draw j) (g.x j * s + cur.x_offset) (g.y j * s + cur.y_offset) := by
  simp only [glyphBuffers, List.mem_map, List.mem_range] at h
  obtain ⟨j, hj, rfl⟩ := h
  exact ⟨j, by omega, rfl⟩

theorem charPlacements_mem {font : FontTable} {s : ℚ} {w : Word} {cur : Cursor}
    {p : FontChar × Cursor} (h : p ∈ charPlacements font s w cur) :
    p.2.y_offset = cur.y_offset ∧ ∃ c, p.1 = font c := by
  induction w generalizing cur with
  | nil => simp [charPlacements] at h
  | cons c w ih =>
    simp only [charPlacements, List.mem_cons] at h
    rcases h with rfl | h
    · exact ⟨rfl, _, rfl⟩
    · have := ih h
      simpa using this

theorem skel_wrapCheck_y_le (s : ℚ) (hs : 0 < s) (cur : Cursor) (ww : ℚ) :
    (Skeleton.wrapCheck s cur ww).y_offset ≤ cur.y_offset := by
  unfold Skeleton.wrapCheck
  split
  · simp only
    linarith
  · exact le_refl _

theorem skel_placements_mem {font : FontTable} {s : ℚ} (hs : 0 < s) {words : List Word}
    {cur : Cursor} {p : FontChar × Cursor} (h : p ∈ Skeleton.placements font s words cur) :
    p.2.y_offset ≤ cur.y_offset ∧ ∃ c, p.1 = font c := by
  induction words generalizing cur with
  | nil => simp [Skeleton.placements] at h
  | cons w ws ih =>
    by_cases hlen : w.length ≥ 100
    · rw [Skeleton.placements, if_pos hlen] at h
      exact ih h
    · rw [Skeleton.placements, if_neg hlen, List.mem_append] at h
      have hwrap := skel_wrapCheck_y_le s hs cur (wordAdvance font s w)
      rcases h with h | h
      · obtain ⟨hy, hc⟩ := charPlacements_mem h
        exact ⟨by rw [hy]; exact hwrap, hc⟩
      · obtain ⟨hy, hc⟩ := ih h
        exact ⟨le_trans hy (by simpa [afterWord] using hwrap), hc⟩

theorem refac_placements_mem {font : FontTable} {s : ℚ} {words : List Word}
    {cur : Cursor} {p : FontChar × Cursor} (h : p ∈ Refactored.placements font s words cur) :
    p.2.y_offset = cur.y_offset ∧ ∃ c, p.1 = font c := by
  induction words generalizing cur with
  | nil => simp [Refactored.placements] at h
  | cons w ws ih =>
    by_cases hlen : w.length ≥ 100
    · rw [Refactored.placements, if_pos hlen] at h
      exact ih h
    · rw [Refactored.placements, if_neg hlen, List.mem_append] at h
      rcases h with h | h
      · exact charPlacements_mem h
      · obtain ⟨hy, hc⟩ := ih h
        exact ⟨by simpa [afterWord] using hy, hc⟩

/-- A move of a stroke buffer carries the coordinates given to `strokeBuffer`. -/
theorem strokeBuffer_move {pen : Int} {x y : ℚ} {k : Nat} {x' y' : ℚ}
    (h : Instr.G k x' y' ∈ strokeBuffer pen x y) : x' = x ∧ y' = y := by
  rcases strokeBuffer_form pen x y with hf | hf <;> rw [hf] at h <;> simp at h <;>
    exact ⟨h.2.1, h.2.2⟩

/-! ## Facts about the font loader -/

theorem writeSlot_nat {α : Type} (a : Nat → α) (j : Nat) (v : α) (h : j < MAX_STROKES) :
    writeSlot a (j : Int) v = some (Function.update a j v) := by
  have h' : ((j : Int) < 50) := by exact_mod_cast h
  simp [writeSlot, h']

theorem writeFont_eq (font : FontTable) (c : Int) (g : FontChar) (h0 : 0 ≤ c) (h1 : c ≤ 127) :
    writeFont font c g = some (Function.update font c.toNat g) := by
  have h2 : c < 128 := by omega
  simp [writeFont, h0, h2]

theorem storeStrokes_strokeCount (g : FontChar) (start : Nat) (ts : List Stroke) :
    (storeStrokes g start ts).strokeCount = g.strokeCount ∧
      (storeStrokes g start ts).asciiCode = g.asciiCode := by
  induction ts generalizing g start with
  | nil => exact ⟨rfl, rfl⟩
  | cons t ts ih =>
    rw [storeStrokes]
    exact ih _ _

/-- Storing records from slot `start` on leaves the slots below `start`. -/
theorem storeStrokes_below (g : FontChar) (start : Nat) (ts : List Stroke) (j : Nat)
    (hj : j < start) :
    (storeStrokes g start ts).x j = g.x j ∧ (storeStrokes g start ts).y j = g.y j ∧
      (storeStrokes g start ts).draw j = g.draw j := by
  induction ts generalizing g start with
  | nil => exact ⟨rfl, rfl, rfl⟩
  | cons t ts ih =>
    rw [storeStrokes]
    obtain ⟨hx, hy, hd⟩ := ih
      { g with x := Function.update g.x start t.x, y := Function.update g.y start t.y,
               draw := Function.update g.draw start t.pen } (start + 1) (by omega)
    have hne : j ≠ start := by omega
    rw [hx, hy, hd]
    simp [Function.update_noteq hne]

/-- Reading back the slots `start, start + 1, ...` of a glyph in which `ts` was
stored from `start` gives `ts`. -/
theorem storeStrokes_readback (g : FontChar) (start : Nat) (ts : List Stroke) :
    (List.range' start ts.length).map (fun i =>
      ({ x := (storeStrokes g start ts).x i, y := (storeStrokes g start ts).y i,
         pen := (storeStrokes g start ts).draw i } : Stroke)) = ts := by
  induction ts generalizing g start with
  | nil => simp
  | cons t ts ih =>
    rw [List.length_cons, List.range'_succ, List.map_cons, storeStrokes, ih]
    obtain ⟨hx, hy, hd⟩ := storeStrokes_below
      { g with x := Function.update g.x start t.x, y := Function.update g.y start t.y,
               draw := Function.update g.draw start t.pen } (start + 1) ts start (by omega)
    rw [hx, hy, hd]
    simp

/-- The loop on the stroke lines of a block: with `numStrokes` equal to the number
of lines left and `strokeCount - numStrokes = start`, the records are stored in
the slots `start, start + 1, ...` and `numStrokes` ends at 0. -/
theorem readLoop_strokes (ts : List Stroke) (rest : List Line) (font : FontTable) (c : Int)
    (start : Nat) (h0 : 0 ≤ c) (h1 : c ≤ 127)
    (hcount : (font c.toNat).strokeCount = (start + ts.length : Nat))
    (hmax : start + ts.length ≤ MAX_STROKES) :
    readLoop (ts.map (fun t => Line.stroke t.x t.y t.pen) ++ rest) font c (ts.length : Nat) =
      readLoop rest (Function.update font c.toNat (storeStrokes (font c.toNat) start ts)) c 0 := by
  induction ts generalizing font start with
  | nil => simp [storeStrokes]
  | cons t ts ih =>
    have hc1 : c ≠ -1 := by omega
    have hpos : ((t :: ts).length : Int) > 0 := by simp
    have hidx : (font c.toNat).strokeCount - ((t :: ts).length : Nat) = (start : Int) := by
      rw [hcount]; push_cast; ring
    have hstart : start < MAX_STROKES := by simp at hmax; omega
    have hfa : fontAt font c = some (font c.toNat) := fontAt_eq font c h0 (by simp; omega)
    simp only [List.map_cons, List.cons_append, readLoop, List.append_eq]
    rw [if_pos ⟨hc1, hpos⟩, hfa]
    simp only [Option.bind_eq_bind, Option.some_bind, hidx, writeSlot_nat _ start _ hstart,
      writeFont_eq _ c _ h0 h1]
    have hlen : (((t :: ts).length : Nat) : Int) - 1 = (ts.length : Nat) := by
      simp
    rw [hlen]
    have step := ih (Function.update font c.toNat
      ⟨(font c.toNat).asciiCode, (font c.toNat).strokeCount,
        Function.update (font c.toNat).x start t.x, Function.update (font c.toNat).y start t.y,
        Function.update (font c.toNat).draw start t.pen⟩)
      (start + 1) (by simp [hcount]; omega) (by simp at hmax ⊢; omega)
    rw [step]
    simp [storeStrokes, Function.update_same, Function.update_idem]

/-- The loop on the lines of one valid block stores the block in the table. -/
theorem readLoop_block (b : Block) (rest : List Line) (font : FontTable) (cc ns : Int)
    (hb : ValidBlock b) :
    readLoop (b.lines ++ rest) font cc ns = readLoop rest (loadBlock font b) b.code 0 := by
  obtain ⟨h0, h1, hmax⟩ := hb
  have hfa : fontAt font b.code = some (font b.code.toNat) :=
    fontAt_eq font b.code h0 (by simp; omega)
  simp only [Block.lines, List.cons_append, readLoop, hfa, Option.bind_eq_bind, Option.some_bind,
    writeFont_eq _ b.code _ h0 h1, List.append_eq]
  rw [readLoop_strokes b.strokes rest _ b.code 0 h0 h1 (by simp) (by simpa using hmax)]
  simp [loadBlock, Function.update_same, Function.update_idem]

/-- On a valid source `readFontData`'s loop returns 1 with the blocks loaded in order. -/
theorem readLoop_source (blocks : List Block) (font : FontTable) (cc ns : Int)
    (h : ∀ b ∈ blocks, ValidBlock b) :
    readLoop (fontSource blocks) font cc ns = some (1, blocks.foldl loadBlock font) := by
  induction blocks generalizing font cc ns with
  | nil => simp [fontSource, readLoop]
  | cons b bs ih =>
    have hb := h b (List.mem_cons_self b bs)
    have hbs : ∀ b' ∈ bs, ValidBlock b' := fun b' hb' => h b' (List.mem_cons_of_mem b hb')
    have : fontSource (b :: bs) = b.lines ++ fontSource bs := by
      simp [fontSource, List.flatMap_cons]
    rw [this, readLoop_block b _ font cc ns hb, ih _ _ _ hbs, List.foldl_cons]

/-- Loading blocks of other codes leaves the glyph of code `c`. -/
theorem foldl_loadBlock_other (blocks : List Block) (font : FontTable) (c : Nat)
    (h : ∀ b ∈ blocks, b.code.toNat ≠ c) :
    (blocks.foldl loadBlock font) c = font c := by
  induction blocks generalizing font with
  | nil => rfl
  | cons b bs ih =>
    have hb := h b (List.mem_cons_self b bs)
    rw [List.foldl_cons, ih _ (fun b' hb' => h b' (List.mem_cons_of_mem b hb'))]
    simp [loadBlock, Function.update_noteq (Ne.symm hb)]

/-- The glyph of a block's code right after the block is loaded. -/
theorem loadBlock_glyph (font : FontTable) (b : Block) :
    (loadBlock font b b.code.toNat).asciiCode = b.code ∧
    (loadBlock font b b.code.toNat).strokeCount = b.strokes.length ∧
    glyphStrokes (loadBlock font b b.code.toNat) = b.strokes := by
  have hsc := storeStrokes_strokeCount
    { font b.code.toNat with asciiCode := b.code, strokeCount := b.strokes.length } 0 b.strokes
  have hrb := storeStrokes_readback
    { font b.code.toNat with asciiCode := b.code, strokeCount := b.strokes.length } 0 b.strokes
  simp only [loadBlock, Function.update_same]
  refine ⟨hsc.2, hsc.1, ?_⟩
  rw [glyphStrokes, hsc.1]
  simpa [List.range_eq_range'] using hrb

/-- A header whose code is outside `0..127` makes the loop write outside the table. -/
theorem readLoop_header_outside (code count : Int) (rest : List Line) (font : FontTable)
    (cc ns : Int) (h : code < 0 ∨ 127 < code) :
    readLoop (Line.header code count :: rest) font cc ns = none := by
  have hn : ¬ (0 ≤ code ∧ code < 128) := by omega
  simp [readLoop, fontAt, hn]

/-- A line that does not begin with `999` is skipped when no stroke is expected. -/
theorem readLoop_skip (extras rest : List Line) (font : FontTable) (cc ns : Int)
    (hex : ∀ l ∈ extras, l.plain) (hst : cc = -1 ∨ ns ≤ 0) :
    readLoop (extras ++ rest) font cc ns = readLoop rest font cc ns := by
  induction extras with
  | nil => rfl
  | cons l ls ih =>
    have hl := hex l (List.mem_cons_self l ls)
    have hls : ∀ l' ∈ ls, l'.plain := fun l' hl' => hex l' (List.mem_cons_of_mem l hl')
    have hcond : ¬ (cc ≠ -1 ∧ ns > 0) := by omega
    cases l with
    | header code count => exact absurd hl (by simp [Line.plain])
    | badHeader => exact absurd hl (by simp [Line.plain])
    | stroke x y pen =>
      simp only [List.cons_append, readLoop, if_neg hcond, List.append_eq]
      exact ih hls
    | other =>
      simp only [List.cons_append, readLoop, if_neg hcond, List.append_eq]
      exact ih hls

/-- The loop on valid blocks followed by further lines: the blocks are loaded and
the loop goes on with `numStrokes = 0`. -/
theorem readLoop_blocks_then (blocks : List Block) (font : FontTable) (cc : Int)
    (h : ∀ b ∈ blocks, ValidBlock b) :
    ∃ cc' : Int, ∀ rest : List Line,
      readLoop (fontSource blocks ++ rest) font cc 0 =
        readLoop rest (blocks.foldl loadBlock font) cc' 0 := by
  induction blocks generalizing font cc with
  | nil => exact ⟨cc, fun rest => by simp [fontSource]⟩
  | cons b bs ih =>
    have hb := h b (List.mem_cons_self b bs)
    have hbs : ∀ b' ∈ bs, ValidBlock b' := fun b' hb' => h b' (List.mem_cons_of_mem b hb')
    obtain ⟨cc', hcc'⟩ := ih (loadBlock font b) b.code hbs
    refine ⟨cc', fun rest => ?_⟩
    have hsrc : fontSource (b :: bs) ++ rest = b.lines ++ (fontSource bs ++ rest) := by
      simp [fontSource, List.flatMap_cons, List.append_assoc]
    rw [hsrc, readLoop_block b _ font cc 0 hb, hcc' rest, List.foldl_cons]

/-- The loop on `ts.length` stroke lines when `numStrokes` is `ts.length + m`:
the records go to the slots `start, start + 1, ...` and `m` strokes stay expected. -/
theorem readLoop_strokes_partial (ts : List Stroke) (rest : List Line) (font : FontTable)
    (c : Int) (start m : Nat) (h0 : 0 ≤ c) (h1 : c ≤ 127)
    (hcount : (font c.toNat).strokeCount = (start + ts.length + m : Nat))
    (hmax : start + ts.length + m ≤ MAX_STROKES) :
    readLoop (ts.map (fun t => Line.stroke t.x t.y t.pen) ++ rest) font c
        ((ts.length + m : Nat) : Int) =
      readLoop rest (Function.update font c.toNat (storeStrokes (font c.toNat) start ts)) c m := by
  induction ts generalizing font start with
  | nil => simp [storeStrokes]
  | cons t ts ih =>
    have hc1 : c ≠ -1 := by omega
    have hpos : (((t :: ts).length + m : Nat) : Int) > 0 := by simp; omega
    have hidx : (font c.toNat).strokeCount - (((t :: ts).length + m : Nat) : Int) =
        (start : Int) := by
      rw [hcount]; push_cast; ring
    have hstart : start < MAX_STROKES := by simp at hmax; omega
    have hfa : fontAt font c = some (font c.toNat) := fontAt_eq font c h0 (by simp; omega)
    simp only [List.map_cons, List.cons_append, readLoop, List.append_eq]
    rw [if_pos ⟨hc1, hpos⟩, hfa]
    simp only [Option.bind_eq_bind, Option.some_bind, hidx, writeSlot_nat _ start _ hstart,
      writeFont_eq _ c _ h0 h1]
    have hlen : ((((t :: ts).length + m : Nat) : Int)) - 1 = ((ts.length + m : Nat) : Int) := by
      simp; ring
    rw [hlen]
    have step := ih (Function.update font c.toNat
      ⟨(font c.toNat).asciiCode, (font c.toNat).strokeCount,
        Function.update (font c.toNat).x start t.x, Function.update (font c.toNat).y start t.y,
        Function.update (font c.toNat).draw start t.pen⟩)
      (start + 1) (by simp [hcount]; omega) (by simp at hmax ⊢; omega)
    rw [step]
    simp [storeStrokes, Function.update_same, Function.update_idem]

/-- Storing records from slot `start` on leaves the slots from
`start + ts.length` on. -/
theorem storeStrokes_above (g : FontChar) (start : Nat) (ts : List Stroke) (j : Nat)
    (hj : start + ts.length ≤ j) :
    (storeStrokes g start ts).x j = g.x j ∧ (storeStrokes g start ts).y j = g.y j ∧
      (storeStrokes g start ts).draw j = g.draw j := by
  induction ts generalizing g start with
  | nil => exact ⟨rfl, rfl, rfl⟩
  | cons t ts ih =>
    rw [storeStrokes]
    obtain ⟨hx, hy, hd⟩ := ih
      { g with x := Function.update g.x start t.x, y := Function.update g.y start t.y,
               draw := Function.update g.draw start t.pen } (start + 1)
      (by simp at hj; omega)
    have hne : j ≠ start := by simp at hj; omega
    rw [hx, hy, hd]
    simp [Function.update_noteq hne]

/-- A token that does not fit in `word` makes the reading of the file undefined. -/
theorem fscanfWords_overflow (pre post : List Word) (token : Word)
    (h : fscanfWord token = none) : fscanfWords (pre ++ token :: post) = none := by
  induction pre with
  | nil => simp [fscanfWords, h]
  | cons p ps ih =>
    cases hp : fscanfWord p <;> simp [fscanfWords, hp, ih]

theorem writeSlot_int {α : Type} (a : Nat → α) (i : Int) (v : α) (h0 : 0 ≤ i)
    (h1 : i < 50) : writeSlot a i v = some (Function.update a i.toNat v) := by
  simp [writeSlot, h0, h1]

/-- One iteration of the loop on a header line with a code inside the table. -/
theorem loader_header_step (f : FontTable) (cc ns code count : Int) (rest : List Line)
    (h0 : 0 ≤ code) (h1 : code ≤ 127) (hc0 : 0 ≤ count) (hc1 : count ≤ 50) :
    readLoop (Line.header code count :: rest) f cc ns =
        readLoop rest (headerWrite f code count) code count ∧
      LoaderInv (headerWrite f code count) code count ∧
      (headerWrite f code count code.toNat).strokeCount - count = 0 := by
  have hfa : fontAt f code = some (f code.toNat) := fontAt_eq f code h0 (by simp; omega)
  refine ⟨?_, Or.inr ⟨h0, h1, hc0, ?_, ?_⟩, ?_⟩
  · simp only [readLoop, hfa, Option.bind_eq_bind, Option.some_bind,
      writeFont_eq _ code _ h0 h1, headerWrite]
  · simp [headerWrite]
  · simpa [headerWrite] using hc1
  · simp [headerWrite]

/-- One iteration of the loop on a stroke line while strokes are expected. -/
theorem loader_stroke_step (f : FontTable) (cc ns : Int) (x y : ℚ) (pen : Int)
    (rest : List Line) (hinv : LoaderInv f cc ns) (hcc : cc ≠ -1) (hns : ns > 0) :
    0 ≤ (f cc.toNat).strokeCount - ns ∧
      (f cc.toNat).strokeCount - ns < (f cc.toNat).strokeCount ∧
      (f cc.toNat).strokeCount ≤ 50 ∧
      readLoop (Line.stroke x y pen :: rest) f cc ns =
        readLoop rest (strokeWrite f cc ((f cc.toNat).strokeCount - ns).toNat x y pen) cc
          (ns - 1) ∧
      LoaderInv (strokeWrite f cc ((f cc.toNat).strokeCount - ns).toNat x y pen) cc (ns - 1) ∧
      (strokeWrite f cc ((f cc.toNat).strokeCount - ns).toNat x y pen cc.toNat).strokeCount
          - (ns - 1) = ((f cc.toNat).strokeCount - ns) + 1 := by
  rcases hinv with ⟨hneg, _⟩ | ⟨h0, h1, hn0, hle, hmax⟩
  · exact absurd hneg hcc
  have hmax' : (f cc.toNat).strokeCount ≤ 50 := by simpa using hmax
  have hfa : fontAt f cc = some (f cc.toNat) := fontAt_eq f cc h0 (by simp; omega)
  have hi0 : 0 ≤ (f cc.toNat).strokeCount - ns := by omega
  have hi1 : (f cc.toNat).strokeCount - ns < 50 := by omega
  have hsc : (strokeWrite f cc ((f cc.toNat).strokeCount - ns).toNat x y pen cc.toNat).strokeCount
      = (f cc.toNat).strokeCount := by
    simp [strokeWrite]
  refine ⟨hi0, by omega, hmax', ?_, Or.inr ⟨h0, h1, by omega, ?_, ?_⟩, ?_⟩
  · simp only [readLoop]
    rw [if_pos ⟨hcc, hns⟩, hfa]
    simp only [Option.bind_eq_bind, Option.some_bind, writeSlot_int _ _ _ hi0 hi1,
      writeFont_eq _ cc _ h0 h1, strokeWrite]
  · rw [hsc]; omega
  · rw [hsc]; exact hmax
  · rw [hsc]; ring

/-- One iteration of the loop on a line without `999` while no stroke is expected. -/
theorem loader_skip_step (f : FontTable) (cc ns : Int) (l : Line) (rest : List Line)
    (hl : l.plain) (hst : ¬ (cc ≠ -1 ∧ ns > 0)) :
    readLoop (l :: rest) f cc ns = readLoop rest f cc ns := by
  cases l with
  | header code count => exact absurd hl (by simp [Line.plain])
  | badHeader => exact absurd hl (by simp [Line.plain])
  | stroke x y pen => simp only [readLoop, if_neg hst]
  | other => simp only [readLoop, if_neg hst]

/-- From a state satisfying the loop invariant, on lines whose headers are in
range, the loop never leaves the arrays: it returns 0 or 1. -/
theorem readLoop_defined (lines : List Line) (f : FontTable) (cc ns : Int)
    (hinv : LoaderInv f cc ns)
    (hvalid : ∀ code count, Line.header code count ∈ lines →
      0 ≤ code ∧ code ≤ 127 ∧ 0 ≤ count ∧ count ≤ 50) :
    ∃ r font', readLoop lines f cc ns = some (r, font') ∧ (r = 0 ∨ r = 1) := by
  induction lines generalizing f cc ns with
  | nil => exact ⟨1, f, rfl, Or.inr rfl⟩
  | cons l ls ih =>
    have hls : ∀ code count, Line.header code count ∈ ls →
        0 ≤ code ∧ code ≤ 127 ∧ 0 ≤ count ∧ count ≤ 50 :=
      fun code count hm => hvalid code count (List.mem_cons_of_mem l hm)
    cases l with
    | header code count =>
      obtain ⟨h0, h1, hc0, hc1⟩ := hvalid code count (List.mem_cons_self _ ls)
      obtain ⟨heq, hinv', _⟩ := loader_header_step f cc ns code count ls h0 h1 hc0 hc1
      rw [heq]
      exact ih _ _ _ hinv' hls
    | badHeader => exact ⟨0, f, rfl, Or.inl rfl⟩
    | stroke x y pen =>
      by_cases hst : cc ≠ -1 ∧ ns > 0
      · obtain ⟨_, _, _, heq, hinv', _⟩ := loader_stroke_step f cc ns x y pen ls hinv hst.1 hst.2
        rw [heq]
        exact ih _ _ _ hinv' hls
      · rw [loader_skip_step f cc ns _ ls (by simp [Line.plain]) hst]
        exact ih _ _ _ hinv hls
    | other =>
      by_cases hst : cc ≠ -1 ∧ ns > 0
      · exact ⟨0, f, by simp only [readLoop, if_pos hst], Or.inl rfl⟩
      · rw [loader_skip_step f cc ns _ ls (by simp [Line.plain]) hst]
        exact ih _ _ _ hinv hls

/-- On a valid sequence of blocks given by the lines the loop observes, the load
returns 1 and each glyph holds the last block that declares its code. -/
theorem blocks_load_last_wins (blocks : List Block) (font : FontTable)
    (h : ∀ b ∈ blocks, ValidBlock b) :
    ∃ font', readFontData (some (fontSource blocks)) font = some (1, font') ∧
      ∀ (pre post : List Block) (b : Block), blocks = pre ++ b :: post →
        (∀ b' ∈ post, b'.code ≠ b.code) →
        (font' b.code.toNat).asciiCode = b.code ∧
        (font' b.code.toNat).strokeCount = b.strokes.length ∧
        glyphStrokes (font' b.code.toNat) = b.strokes := by
  refine ⟨blocks.foldl loadBlock font, ?_, ?_⟩
  · simp only [readFontData]
    exact readLoop_source blocks font (-1) 0 h
  · intro pre post b hsplit hlast
    have hb : ValidBlock b := h b (by rw [hsplit]; simp)
    have hother : ∀ b' ∈ post, b'.code.toNat ≠ b.code.toNat := by
      intro b' hb' heq
      have hv : ValidBlock b' := h b' (by rw [hsplit]; simp [hb'])
      apply hlast b' hb'
      have h1 := hv.1
      have h2 := hb.1
      omega
    rw [hsplit, List.foldl_append, List.foldl_cons,
      foldl_loadBlock_other post _ b.code.toNat hother]
    exact loadBlock_glyph _ b

/-- The lines of a valid block of text none of whose stroke lines begins with
`999` are observed as the header and the stroke records of the block. -/
theorem observe_block (fb : FileBlock) (hv : fb.Valid) (hc : fb.StrokesClear) :
    fb.lines.map FileLine.observe = (fileBlock_block fb).lines := by
  obtain ⟨h999, hscan, _, _, _, hstrokes⟩ := hv
  have hhead : fb.header.observe = Line.header fb.code (fb.strokes.length : Int) := by
    simp [FileLine.observe, h999, hscan]
  have hrest : ∀ (ps : List (Stroke × FileLine)),
      (∀ p ∈ ps, p.2.strokeScan = some (p.1.x, p.1.y, p.1.pen)) →
      (∀ p ∈ ps, p.2.begins999 = false) →
      (ps.map Prod.snd).map FileLine.observe =
        (ps.map Prod.fst).map (fun t => Line.stroke t.x t.y t.pen) := by
    intro ps
    induction ps with
    | nil => intro _ _; rfl
    | cons p ps ih =>
      intro hs hb
      have hp1 := hs p (List.mem_cons_self p ps)
      have hp2 := hb p (List.mem_cons_self p ps)
      have htail := ih (fun q hq => hs q (List.mem_cons_of_mem p hq))
        (fun q hq => hb q (List.mem_cons_of_mem p hq))
      simp only [List.map_cons, htail]
      congr 1
      simp [FileLine.observe, hp1, hp2]
  simp only [FileBlock.lines, List.map_cons, hhead, hrest fb.strokes hstrokes hc, Block.lines,
    fileBlock_block, FileBlock.records, List.length_map]

/-- The lines of a valid text source without a stroke line beginning with `999`
are observed as the source of its blocks. -/
theorem observe_source (blocks : List FileBlock) (hv : ∀ fb ∈ blocks, fb.Valid)
    (hc : ∀ fb ∈ blocks, fb.StrokesClear) :
    (blocks.flatMap FileBlock.lines).map FileLine.observe =
      fontSource (blocks.map fileBlock_block) := by
  induction blocks with
  | nil => rfl
  | cons fb fbs ih =>
    have h1 := observe_block fb (hv fb (List.mem_cons_self fb fbs))
      (hc fb (List.mem_cons_self fb fbs))
    have h2 := ih (fun b hb => hv b (List.mem_cons_of_mem fb hb))
      (fun b hb => hc b (List.mem_cons_of_mem fb hb))
    simp only [List.flatMap_cons, List.map_append, h1, h2, fontSource, List.map_cons]

/-! ## Facts about the rounding to `float` -/

theorem roundHalfEven_near (y : ℚ) : |(roundHalfEven y : ℚ) - y| ≤ 1 / 2 := by
  have hf := Int.floor_le y
  have hl := Int.lt_floor_add_one y
  unfold roundHalfEven
  split_ifs with h1 h2 h3
  · rw [abs_le]
    constructor <;> linarith
  · push_cast
    rw [abs_le]
    constructor <;> linarith
  · have h4 := not_lt.mp h1
    rw [abs_le]
    constructor <;> linarith
  · have h4 := not_lt.mp h2
    push_cast
    rw [abs_le]
    constructor <;> linarith

/-- A rational strictly within 1/2 of the integer `n` is rounded to `n`. -/
theorem roundHalfEven_eq (y : ℚ) (n : Int) (h1 : (n : ℚ) - 1 / 2 < y)
    (h2 : y < (n : ℚ) + 1 / 2) : roundHalfEven y = n := by
  by_cases hn : (n : ℚ) ≤ y
  · have hfl : ⌊y⌋ = n := Int.floor_eq_iff.mpr ⟨hn, by linarith⟩
    unfold roundHalfEven
    rw [hfl, if_pos (by linarith)]
  · have hn' : y < n := not_le.mp hn
    have hfl : ⌊y⌋ = n - 1 := Int.floor_eq_iff.mpr ⟨by push_cast; linarith, by push_cast; linarith⟩
    unfold roundHalfEven
    rw [hfl, if_neg (by push_cast; linarith), if_pos (by push_cast; linarith)]
    ring

theorem binadeFrom_eq (fuel : Nat) (e₀ e : Int) (a : ℚ) (h0 : e₀ ≤ e)
    (hfuel : e - e₀ ≤ fuel) (hl : (2 : ℚ) ^ e ≤ a) (hu : a < (2 : ℚ) ^ (e + 1)) :
    binadeFrom fuel e₀ a = e := by
  induction fuel generalizing e₀ with
  | zero =>
    simp only [binadeFrom]
    have : e - e₀ ≤ 0 := by exact_mod_cast hfuel
    omega
  | succ fuel ih =>
    simp only [binadeFrom]
    by_cases hlt : a < (2 : ℚ) ^ (e₀ + 1)
    · rw [if_pos hlt]
      have h2 : (2 : ℚ) ^ e < (2 : ℚ) ^ (e₀ + 1) := lt_of_le_of_lt hl hlt
      have h3 : e < e₀ + 1 := (zpow_lt_zpow_iff_right₀ (by norm_num : (1 : ℚ) < 2)).mp h2
      omega
    · rw [if_neg hlt]
      have hne : e ≠ e₀ := by
        intro heq
        rw [heq] at hu
        exact hlt hu
      have hstep : e - (e₀ + 1) ≤ fuel := by
        have : e - e₀ ≤ (fuel : Int) + 1 := by exact_mod_cast hfuel
        omega
      exact ih (e₀ + 1) (by omega) hstep

theorem exponent32_eq (a : ℚ) (e : Int) (h0 : -126 ≤ e) (h1 : e ≤ 127)
    (hl : (2 : ℚ) ^ e ≤ a) (hu : a < (2 : ℚ) ^ (e + 1)) : exponent32 a = e := by
  unfold exponent32
  exact binadeFrom_eq 253 (-126) e a h0 (by push_cast; omega) hl hu

/-- Rounding of a positive rational of the normal range to `float`: the result is
finite, a multiple of `2 ^ (e - 23)`, within half of that unit of the rational. -/
theorem roundToFloat_normal (x : ℚ) (e : Int) (h0 : -126 ≤ e) (h1 : e ≤ 126)
    (hl : (2 : ℚ) ^ e ≤ x) (hu : x < (2 : ℚ) ^ (e + 1)) :
    roundToFloat x =
        CFloat.finite ((roundHalfEven (x / (2 : ℚ) ^ (e - 23)) : ℚ) * (2 : ℚ) ^ (e - 23)) ∧
      |(roundHalfEven (x / (2 : ℚ) ^ (e - 23)) : ℚ) * (2 : ℚ) ^ (e - 23) - x| ≤
        (2 : ℚ) ^ (e - 23) / 2 := by
  have hpe : (0 : ℚ) < (2 : ℚ) ^ e := zpow_pos (by norm_num) e
  have hx : 0 < x := lt_of_lt_of_le hpe hl
  have habs : |x| = x := abs_of_pos hx
  have hexp : exponent32 x = e := exponent32_eq x e h0 (by omega) hl hu
  have hulp : (0 : ℚ) < (2 : ℚ) ^ (e - 23) := zpow_pos (by norm_num) _
  have hnear := roundHalfEven_near (x / (2 : ℚ) ^ (e - 23))
  have herr : |(roundHalfEven (x / (2 : ℚ) ^ (e - 23)) : ℚ) * (2 : ℚ) ^ (e - 23) - x| ≤
      (2 : ℚ) ^ (e - 23) / 2 := by
    have hrw : (roundHalfEven (x / (2 : ℚ) ^ (e - 23)) : ℚ) * (2 : ℚ) ^ (e - 23) - x =
        ((roundHalfEven (x / (2 : ℚ) ^ (e - 23)) : ℚ) - x / (2 : ℚ) ^ (e - 23)) *
          (2 : ℚ) ^ (e - 23) := by
      field_simp
    rw [hrw, abs_mul, abs_of_pos hulp]
    calc |(roundHalfEven (x / (2 : ℚ) ^ (e - 23)) : ℚ) - x / (2 : ℚ) ^ (e - 23)| *
          (2 : ℚ) ^ (e - 23)
        ≤ 1 / 2 * (2 : ℚ) ^ (e - 23) := mul_le_mul_of_nonneg_right hnear hulp.le
      _ = (2 : ℚ) ^ (e - 23) / 2 := by ring
  refine ⟨?_, herr⟩
  have hup1 : (2 : ℚ) ^ (e + 1) ≤ (2 : ℚ) ^ (127 : ℤ) :=
    zpow_le_zpow_right₀ (by norm_num) (by omega)
  have hup2 : (2 : ℚ) ^ (e - 23) ≤ (2 : ℚ) ^ (127 : ℤ) :=
    zpow_le_zpow_right₀ (by norm_num) (by omega)
  have h128 : (2 : ℚ) ^ (128 : ℤ) = 2 * (2 : ℚ) ^ (127 : ℤ) := by
    rw [show (128 : ℤ) = 127 + 1 from rfl, zpow_add_one₀ (by norm_num : (2 : ℚ) ≠ 0)]
    ring
  have hlt : ¬ ((2 : ℚ) ^ (128 : ℤ) ≤
      (roundHalfEven (x / (2 : ℚ) ^ (e - 23)) : ℚ) * (2 : ℚ) ^ (e - 23)) := by
    have hle := (abs_le.mp herr).2
    have hp127 : (0 : ℚ) < (2 : ℚ) ^ (127 : ℤ) := zpow_pos (by norm_num) _
    intro hcontra
    rw [h128] at hcontra
    linarith
  unfold roundToFloat
  rw [habs, hexp, if_neg hlt, if_neg (not_lt.mpr hx.le)]

/-- Rounding to `float` of a rational in `[1/8, 1)`: finite and within `2 ^ -25`. -/
theorem roundToFloat_unit (x : ℚ) (h1 : 1 / 8 ≤ x) (h2 : x < 1) :
    ∃ r : ℚ, roundToFloat x = CFloat.finite r ∧ |r - x| ≤ 1 / 2 ^ 25 := by
  by_cases ha : x < 1 / 4
  · obtain ⟨hr, herr⟩ := roundToFloat_normal x (-3) (by norm_num) (by norm_num)
      (by norm_num; linarith) (by norm_num; linarith)
    refine ⟨_, hr, le_trans herr ?_⟩
    norm_num
  · by_cases hb : x < 1 / 2
    · obtain ⟨hr, herr⟩ := roundToFloat_normal x (-2) (by norm_num) (by norm_num)
        (by norm_num; linarith) (by norm_num; linarith)
      refine ⟨_, hr, le_trans herr ?_⟩
      norm_num
    · obtain ⟨hr, herr⟩ := roundToFloat_normal x (-1) (by norm_num) (by norm_num)
        (by norm_num; linarith) (by norm_num; linarith)
      refine ⟨_, hr, le_trans herr ?_⟩
      norm_num

/-- The `float` quotient 10 / 18. -/
theorem roundToFloat_ten_eighteenths :
    roundToFloat (10 / 18) = CFloat.finite (2330169 / 4194304) := by
  obtain ⟨hr, _⟩ := roundToFloat_normal (10 / 18) (-1) (by norm_num) (by norm_num)
    (by norm_num) (by norm_num)
  rw [hr]
  have hm : roundHalfEven ((10 / 18 : ℚ) / (2 : ℚ) ^ ((-1 : ℤ) - 23)) = 9320676 :=
    roundHalfEven_eq _ 9320676 (by norm_num) (by norm_num)
  rw [hm]
  norm_num

/-! ## The claims -/

/-- Claim C4. Wrapping law of the layout of `Skeleton`: for every font, every
scale and every word sequence, at the moment the first character of an accepted
word is placed, either `cursorX + wordWidth ≤ LINE_WIDTH` or `cursorX = 0`; the
cursor meant is the one given by the wrap test, at which the run places the word. -/
theorem skeleton_wrapping_law (font : FontTable) (s : ℚ) (pre post : List Word)
    (w : Word) (out : List Buffer) (cur : Cursor)
    (hpre : Skeleton.wordsLoop font s pre (Skeleton.startCursor s) = some (out, cur))
    (hlen : w.length < 100) (hword : WordOK font w) :
    Skeleton.wordWidthLoop font s w 0 = some (wordAdvance font s w) ∧
    ((Skeleton.wrapCheck s cur (wordAdvance font s w)).x_offset + wordAdvance font s w
        ≤ LINE_WIDTH ∨
      (Skeleton.wrapCheck s cur (wordAdvance font s w)).x_offset = 0) ∧
    Skeleton.generateGCodeForText font (some (pre ++ w :: post)) s =
      (Skeleton.wordsLoop font s post
          (afterWord font s w (Skeleton.wrapCheck s cur (wordAdvance font s w)))).map
        (fun r => out ++
          (charPlacements font s w (Skeleton.wrapCheck s cur (wordAdvance font s w))).flatMap
            (fun p => glyphBuffers p.1 s p.2) ++ r.1 ++ [finalGcode]) := by
  refine ⟨by simpa using skel_wordWidthLoop_eq font s w 0 hword, ?_,
    skel_run_split font s pre post w out cur hpre hlen hword⟩
  by_cases hgt : cur.x_offset + wordAdvance font s w > LINE_WIDTH
  · right
    simp [Skeleton.wrapCheck, hgt]
  · left
    have hle : cur.x_offset + wordAdvance font s w ≤ LINE_WIDTH := not_lt.mp hgt
    simpa [Skeleton.wrapCheck, hgt] using hle

/-- Witness of claim C4: after the word of width 60 the cursor is at 63.5; the
next word of width 60 does not fit and is placed at `cursorX = 0`. -/
theorem skeleton_wrapping_law_witness :
    (Skeleton.wrapCheck (1 / 2) { x_offset := 127 / 2, y_offset := -14 }
        (wordAdvance fontWide (1 / 2) [87])).x_offset + wordAdvance fontWide (1 / 2) [87]
        ≤ LINE_WIDTH ∨
      (Skeleton.wrapCheck (1 / 2) { x_offset := 127 / 2, y_offset := -14 }
        (wordAdvance fontWide (1 / 2) [87])).x_offset = 0 := by
  have hword : WordOK fontWide [87] := by
    simp [WordOK, GlyphOK, fontWide, glyphWide]
  have hpre : Skeleton.wordsLoop fontWide (1 / 2) [[87]] (Skeleton.startCursor (1 / 2)) =
      some ([[Instr.S 0, Instr.G 0 0 (-14)], [Instr.S 1000, Instr.G 1 (239 / 4) (-5)]],
        { x_offset := 127 / 2, y_offset := -14 }) := by
    simp [Skeleton.wordsLoop, Skeleton.wordBody, Skeleton.wordWidthLoop, Skeleton.charLoop,
      Skeleton.wrapCheck, Skeleton.startCursor, strokeLoop, strokeAt, lastX, readSlot, fontAt,
      fontWide, glyphWide, strokeBuffer, LINE_WIDTH, CHARACTER_SPACING, WORD_SPACING]
    norm_num
  exact (skeleton_wrapping_law fontWide (1 / 2) [[87]] [] [87] _ _ hpre (by simp) hword).2.1

/-- Claim C5. For every font, scale and word list that stays inside the arrays,
in both versions of `generateGCodeForText` once the text source is open, the
output is the buffers of the strokes followed by the final buffer `S0`,
`G0 X0.00 Y0.00`: it is the last buffer sent, whatever the final cursor, and it is
sent once, the output having exactly one buffer more than there are strokes. -/
theorem final_buffer_sent_last_once (font : FontTable) (s : ℚ) (words : List Word)
    (h : TextOK font words) :
    (∃ body cur, Skeleton.wordsLoop font s words (Skeleton.startCursor s) = some (body, cur) ∧
      Skeleton.generateGCodeForText font (some words) s =
        some (body ++ [[Instr.S 0, Instr.G 0 0 0]]) ∧
      body.length = strokeTotal font words) ∧
    (∃ body cur, Refactored.wordsLoop font s words (Refactored.startCursor s) = some (body, cur) ∧
      Refactored.generateGCodeForText font (some words) s =
        some (body ++ [[Instr.S 0, Instr.G 0 0 0]]) ∧
      body.length = strokeTotal font words) := by
  refine ⟨⟨_, _, skel_wordsLoop_eq font s words _ h, skel_generate_eq font s words h,
    skel_placements_length font s words _⟩,
    ⟨_, _, refac_wordsLoop_eq font s words _ h, refac_generate_eq font s words h,
    refac_placements_length font s words _⟩⟩

/-- Witness of claim C5: the text "A" in the font holding the letter A. -/
theorem final_buffer_sent_last_once_witness :
    TextOK fontA [[65]] ∧
    (∃ body cur, Skeleton.wordsLoop fontA (5 / 18) [[65]] (Skeleton.startCursor (5 / 18)) =
        some (body, cur) ∧
      Skeleton.generateGCodeForText fontA (some [[65]]) (5 / 18) =
        some (body ++ [[Instr.S 0, Instr.G 0 0 0]]) ∧
      body.length = strokeTotal fontA [[65]]) := by
  have h : TextOK fontA [[65]] := by
    simp [TextOK, WordOK, GlyphOK, fontA, glyphA]
  exact ⟨h, (final_buffer_sent_last_once fontA (5 / 18) [[65]] h).1⟩

/-- Claim C6. Cursor advance: on a word that stays inside the arrays, the
character loop of both versions advances `cursorX` by the sum over its characters
of `(advanceWidth + 0.5) * scale`, `advanceWidth` being the X coordinate of the
final stroke of the glyph, and leaves the baseline; a word placed without a wrap
moves `cursorX` from `x` to `x +` that sum `+ 7 * scale`, in `Skeleton` when the
wrap test does not fire and in `Refactored` always. -/
theorem cursor_advance_per_word (font : FontTable) (s : ℚ) (w : Word) (cur : Cursor)
    (hword : WordOK font w) :
    (∃ out, Skeleton.charLoop font s w cur = some (out,
        { x_offset := cur.x_offset +
            (w.map (fun c =>
              ((font c.toNat).x ((font c.toNat).strokeCount - 1).toNat + 1 / 2) * s)).sum,
          y_offset := cur.y_offset }) ∧
      Refactored.wordChars font s w cur = Skeleton.charLoop font s w cur) ∧
    (w.length < 100 → cur.x_offset + wordAdvance font s w ≤ LINE_WIDTH →
      ∃ out, Skeleton.wordBody font s w cur = some (out,
        { x_offset := cur.x_offset +
            (w.map (fun c =>
              ((font c.toNat).x ((font c.toNat).strokeCount - 1).toNat + 1 / 2) * s)).sum + 7 * s,
          y_offset := cur.y_offset })) ∧
    (∃ out, Refactored.generateWordGCode font w cur s = some (out,
        { x_offset := cur.x_offset +
            (w.map (fun c =>
              ((font c.toNat).x ((font c.toNat).strokeCount - 1).toNat + 1 / 2) * s)).sum + 7 * s,
          y_offset := cur.y_offset })) := by
  have hsum : (w.map (fun c =>
      ((font c.toNat).x ((font c.toNat).strokeCount - 1).toNat + 1 / 2) * s)).sum =
      wordAdvance font s w := by
    simp [wordAdvance, advance, CHARACTER_SPACING]
  rw [hsum]
  refine ⟨⟨_, skel_charLoop_eq font s w cur hword,
    refac_wordChars_eq_charLoop font s w cur⟩, ?_, ?_⟩
  · intro hlen hfit
    have hnw : Skeleton.wrapCheck s cur (wordAdvance font s w) = cur := by
      simp [Skeleton.wrapCheck, not_lt.mpr hfit]
    have hb := skel_wordBody_eq font s w cur hlen hword
    rw [hnw] at hb
    refine ⟨(charPlacements font s w cur).flatMap (fun p => glyphBuffers p.1 s p.2), hb.trans ?_⟩
    simp [afterWord, WORD_SPACING]
  · refine ⟨(charPlacements font s w cur).flatMap (fun p => glyphBuffers p.1 s p.2),
      (refac_generateWordGCode_eq font s w cur hword).trans ?_⟩
    simp [afterWord, WORD_SPACING]

/-- Witness of claim C6: the word "AA" at scale 1/2 from the cursor (0, -14):
each A advances by (18 + 0.5) / 2 = 9.25 and the word gap adds 3.5, to X = 22. -/
theorem cursor_advance_per_word_witness :
    WordOK fontA [65, 65] ∧
    ∃ out, Refactored.generateWordGCode fontA [65, 65] { x_offset := 0, y_offset := -14 } (1 / 2) =
      some (out, { x_offset := 22, y_offset := -14 }) := by
  have hword : WordOK fontA [65, 65] := by
    simp [WordOK, GlyphOK, fontA, glyphA]
  obtain ⟨out, hout⟩ :=
    (cursor_advance_per_word fontA (1 / 2) [65, 65] { x_offset := 0, y_offset := -14 } hword).2.2
  refine ⟨hword, out, hout.trans ?_⟩
  simp [fontA, glyphA]
  norm_num

/-- Claim C7. Pen state and move kind agree: the buffer of a stroke is `S1000`
followed by `G1` when its pen state is 1, and `S0` followed by `G0` for every
other pen state. In both versions the output of a run that stays inside the arrays
is exactly, for every character placed and every stroke `j` of its glyph in order,
the buffer `S1000`, `G1` if `draw[j] = 1` and the buffer `S0`, `G0` otherwise,
followed by the final buffer; so every buffer sent is `S1000` then `G1`, or `S0`
then `G0`, the pen instruction first. -/
theorem pen_state_matches_move (font : FontTable) (s : ℚ) (words : List Word)
    (h : TextOK font words) :
    (∀ (g : FontChar) (cur : Cursor) (j : Nat), j < MAX_STROKES →
      (g.draw j = 1 → strokeAt g s cur j = some [Instr.S 1000,
        Instr.G 1 (g.x j * s + cur.x_offset) (g.y j * s + cur.y_offset)]) ∧
      (g.draw j ≠ 1 → strokeAt g s cur j = some [Instr.S 0,
        Instr.G 0 (g.x j * s + cur.x_offset) (g.y j * s + cur.y_offset)])) ∧
    (∃ out, Skeleton.generateGCodeForText font (some words) s = some out ∧
      out = (Skeleton.placements font s words (Skeleton.startCursor s)).flatMap
          (fun p => (List.range p.1.strokeCount.toNat).map (fun j =>
            if p.1.draw j = 1 then
              [Instr.S 1000, Instr.G 1 (p.1.x j * s + p.2.x_offset) (p.1.y j * s + p.2.y_offset)]
            else
              [Instr.S 0, Instr.G 0 (p.1.x j * s + p.2.x_offset) (p.1.y j * s + p.2.y_offset)]))
        ++ [[Instr.S 0, Instr.G 0 0 0]] ∧
      ∀ b ∈ out, ∃ x y, b = [Instr.S 1000, Instr.G 1 x y] ∨ b = [Instr.S 0, Instr.G 0 x y]) ∧
    (∃ out, Refactored.generateGCodeForText font (some words) s = some out ∧
      out = (Refactored.placements font s words (Refactored.startCursor s)).flatMap
          (fun p => (List.range p.1.strokeCount.toNat).map (fun j =>
            if p.1.draw j = 1 then
              [Instr.S 1000, Instr.G 1 (p.1.x j * s + p.2.x_offset) (p.1.y j * s + p.2.y_offset)]
            else
              [Instr.S 0, Instr.G 0 (p.1.x j * s + p.2.x_offset) (p.1.y j * s + p.2.y_offset)]))
        ++ [[Instr.S 0, Instr.G 0 0 0]] ∧
      ∀ b ∈ out, ∃ x y, b = [Instr.S 1000, Instr.G 1 x y] ∨ b = [Instr.S 0, Instr.G 0 x y]) := by
  have key : ∀ (pl : List (FontChar × Cursor)),
      ∀ b ∈ pl.flatMap (fun p => glyphBuffers p.1 s p.2) ++ [finalGcode],
        ∃ x y, b = [Instr.S 1000, Instr.G 1 x y] ∨ b = [Instr.S 0, Instr.G 0 x y] := by
    intro pl b hb
    rw [List.mem_append] at hb
    rcases hb with hb | hb
    · obtain ⟨p, _, hbp⟩ := List.mem_flatMap.mp hb
      obtain ⟨j, _, rfl⟩ := glyphBuffers_mem hbp
      exact ⟨_, _, strokeBuffer_form _ _ _⟩
    · simp only [List.mem_singleton] at hb
      exact ⟨0, 0, Or.inr (by rw [hb, finalGcode])⟩
  have unfold : ∀ (pl : List (FontChar × Cursor)),
      pl.flatMap (fun p => glyphBuffers p.1 s p.2) ++ [finalGcode] =
        pl.flatMap (fun p => (List.range p.1.strokeCount.toNat).map (fun j =>
            if p.1.draw j = 1 then
              [Instr.S 1000, Instr.G 1 (p.1.x j * s + p.2.x_offset) (p.1.y j * s + p.2.y_offset)]
            else
              [Instr.S 0, Instr.G 0 (p.1.x j * s + p.2.x_offset) (p.1.y j * s + p.2.y_offset)]))
          ++ [[Instr.S 0, Instr.G 0 0 0]] := by
    intro pl
    simp only [glyphBuffers, strokeBuffer, finalGcode]
  refine ⟨?_, ⟨_, skel_generate_eq font s words h, unfold _, key _⟩,
    ⟨_, refac_generate_eq font s words h, unfold _, key _⟩⟩
  intro g cur j hj
  rw [strokeAt_eq g s cur j hj]
  constructor
  · intro h1
    simp [strokeBuffer, h1]
  · intro h1
    simp [strokeBuffer, h1]

/-- Witness of claim C7: the three strokes of the letter A have the pen states
0, 1, 1, and `Refactored` sends for them `S0`/`G0`, `S1000`/`G1`, `S1000`/`G1`. -/
theorem pen_state_matches_move_witness :
    TextOK fontA [[65]] ∧
    (glyphA.draw 0 = 0 ∧ glyphA.draw 1 = 1 ∧ glyphA.draw 2 = 1) ∧
    Refactored.generateGCodeForText fontA (some [[65]]) (5 / 18) =
      some [[Instr.S 0, Instr.G 0 0 (-10)], [Instr.S 1000, Instr.G 1 (5 / 2) (-5)],
        [Instr.S 1000, Instr.G 1 5 (-10)], [Instr.S 0, Instr.G 0 0 0]] := by
  have h : TextOK fontA [[65]] := by
    simp [TextOK, WordOK, GlyphOK, fontA, glyphA]
  obtain ⟨out, hrun, hout, _⟩ := (pen_state_matches_move fontA (5 / 18) [[65]] h).2.2
  refine ⟨h, by simp [glyphA], hrun.trans ?_⟩
  rw [hout]
  simp [Refactored.placements, charPlacements, Refactored.startCursor, fontA, glyphA,
    List.range, List.range.loop]
  norm_num

/-- Claim C8, behaviour of the code at the failing input: in the font holding only
the letter A, the glyph of code 66 is undefined (zero strokes); on the text "B"
both versions read `x[strokeCount - 1] = x[-1]`, outside the stroke array, and
the run has no defined result. -/
theorem undefined_glyph_reads_outside_array :
    (fontA 66).strokeCount = 0 ∧
    lastX (fontA 66) = readSlot (fontA 66).x (-1) ∧
    readSlot (fontA 66).x (-1) = none ∧
    (∀ s : ℚ, Skeleton.generateGCodeForText fontA (some [[66]]) s = none) ∧
    (∀ s : ℚ, Refactored.generateGCodeForText fontA (some [[66]]) s = none) := by
  refine ⟨by simp [fontA, FontChar.zero], by simp [lastX, fontA, FontChar.zero],
    by simp [readSlot], ?_, ?_⟩
  · intro s
    simp [Skeleton.generateGCodeForText, Skeleton.wordsLoop, Skeleton.wordBody,
      Skeleton.wordWidthLoop, fontAt, lastX, readSlot, fontA, FontChar.zero]
  · intro s
    simp [Refactored.generateGCodeForText, Refactored.wordsLoop, Refactored.generateWordGCode,
      Refactored.wordChars, Refactored.processCharacterCoordinates, strokeLoop, fontAt, lastX,
      readSlot, fontA, FontChar.zero]

/-- Claim C9. All emitted Y coordinates are non-positive: for every font whose
stroke Y coordinates are at most 18, every scale `s > 0` and every word list that
stays inside the arrays, in both versions every move of a stroke buffer has
`Y ≤ -5`, and the only other buffer is the final one, whose move has `Y = 0`. -/
theorem emitted_y_nonpositive (font : FontTable) (s : ℚ) (words : List Word)
    (hy : ∀ (c j : Nat), (j : Int) < (font c).strokeCount → (font c).y j ≤ 18)
    (hs : 0 < s) (h : TextOK font words) :
    (∃ body, Skeleton.generateGCodeForText font (some words) s =
        some (body ++ [[Instr.S 0, Instr.G 0 0 0]]) ∧
      ∀ b ∈ body, ∀ k x y, Instr.G k x y ∈ b → y ≤ -5) ∧
    (∃ body, Refactored.generateGCodeForText font (some words) s =
        some (body ++ [[Instr.S 0, Instr.G 0 0 0]]) ∧
      ∀ b ∈ body, ∀ k x y, Instr.G k x y ∈ b → y ≤ -5) := by
  have key : ∀ (pl : List (FontChar × Cursor)),
      (∀ p ∈ pl, p.2.y_offset ≤ -(s * 18 + 5) ∧ ∃ c, p.1 = font c) →
      ∀ b ∈ pl.flatMap (fun p => glyphBuffers p.1 s p.2),
        ∀ k x y, Instr.G k x y ∈ b → y ≤ -5 := by
    intro pl hpl b hb k x y hmem
    obtain ⟨p, hp, hbp⟩ := List.mem_flatMap.mp hb
    obtain ⟨hpy, c, hc⟩ := hpl p hp
    obtain ⟨j, hj, rfl⟩ := glyphBuffers_mem hbp
    obtain ⟨-, rfl⟩ := strokeBuffer_move hmem
    rw [hc] at hj ⊢
    have h18 := hy c j hj
    have hmul : (font c).y j * s ≤ 18 * s := mul_le_mul_of_nonneg_right h18 hs.le
    linarith
  refine ⟨⟨_, skel_generate_eq font s words h, key _ ?_⟩,
    ⟨_, refac_generate_eq font s words h, key _ ?_⟩⟩
  · intro p hp
    obtain ⟨hle, hc⟩ := skel_placements_mem hs hp
    exact ⟨by simpa [Skeleton.startCursor] using hle, hc⟩
  · intro p hp
    obtain ⟨hle, hc⟩ := refac_placements_mem hp
    exact ⟨by rw [hle]; simp [Refactored.startCursor], hc⟩

/-- Witness of claim C9: two words of width 60 at scale 1/2, the second one on
the second line; the stroke moves have Y = -14, -5, -28, -19. -/
theorem emitted_y_nonpositive_witness :
    ∃ body, Skeleton.generateGCodeForText fontWide (some [[87], [87]]) (1 / 2) =
        some (body ++ [[Instr.S 0, Instr.G 0 0 0]]) ∧
      ∀ b ∈ body, ∀ k x y, Instr.G k x y ∈ b → y ≤ -5 := by
  refine (emitted_y_nonpositive fontWide (1 / 2) [[87], [87]] ?_ (by norm_num) ?_).1
  · intro c j _
    by_cases hc : c = 87 <;> by_cases hj : j = 1 <;>
      simp [fontWide, glyphWide, FontChar.zero, hc, hj]
  · simp [TextOK, WordOK, GlyphOK, fontWide, glyphWide]

/-- Counterexample to claim C10 as stated, on three valid sources loaded into the
zeroed table. (1) Two blocks for code 65, `999 65 1`, `1 2 1`, `999 65 1`, `3 4 0`:
the load returns 1 and glyph 65 holds the stroke of the second block, not that of
the first. (2) The block `999 65 2` with the stroke lines `999 0 1` and `5 6 1`:
the stroke line `999 0 1` begins with `999` and is taken as the header of code 0;
the load returns 1, glyph 65 has `strokeCount = 2` and none of its two records,
and the record (5, 6, 1) lands in glyph 0. (3) The block `999 65 1` with the stroke
line `999.5 0 1`: the load returns 0. (4) The block `999 65 2` whose first stroke
line is `1 2 1` followed by 300 spaces and whose second is `3 4 0`: `fgets` returns
the long line in two pieces, of 255 and of 50 characters, the second piece is read
while a stroke is expected and the load returns 0. -/
theorem font_load_round_trip_counterexample :
    (∃ font', readFontFile (some [line_999_65_1, line_1_2_1, line_999_65_1, line_3_4_0])
        (fun _ => FontChar.zero) = some (1, font') ∧
      glyphStrokes (font' 65) = [Stroke.mk 3 4 0] ∧
      glyphStrokes (font' 65) ≠ [Stroke.mk 1 2 1]) ∧
    (FileBlock.Valid (FileBlock.mk 65 line_999_65_2
        [(Stroke.mk 999 0 1, line_999_0_1), (Stroke.mk 5 6 1, line_5_6_1)]) ∧
      ∃ font', readFontFile (some [line_999_65_2, line_999_0_1, line_5_6_1])
          (fun _ => FontChar.zero) = some (1, font') ∧
        (font' 65).strokeCount = 2 ∧
        glyphStrokes (font' 65) = [Stroke.mk 0 0 0, Stroke.mk 0 0 0] ∧
        glyphStrokes (font' 65) ≠ [Stroke.mk 999 0 1, Stroke.mk 5 6 1] ∧
        glyphStrokes (font' 0) = [Stroke.mk 5 6 1]) ∧
    (FileBlock.Valid (FileBlock.mk 65 line_999_65_1
        [(Stroke.mk (1999 / 2) 0 1, line_999p5_0_1)]) ∧
      ∃ font', readFontFile (some [line_999_65_1, line_999p5_0_1])
          (fun _ => FontChar.zero) = some (0, font')) ∧
    (line_1_2_1_long_head.text.length = 255 ∧ line_long_tail.text.length = 50 ∧
      ∃ font', readFontFile
          (some [line_999_65_2, line_1_2_1_long_head, line_long_tail, line_3_4_0])
          (fun _ => FontChar.zero) = some (0, font')) := by
  refine ⟨?_, ⟨?_, ?_⟩, ⟨?_, ?_⟩,
    ⟨by simp only [line_1_2_1_long_head, List.length_append, List.length_replicate]; rfl,
      by simp only [line_long_tail, List.length_replicate], ?_⟩⟩
  · have hvalid : ∀ b ∈ [Block.mk 65 [Stroke.mk 1 2 1], Block.mk 65 [Stroke.mk 3 4 0]],
        ValidBlock b := by
      intro b hb
      simp only [List.mem_cons, List.mem_singleton, List.not_mem_nil, or_false] at hb
      rcases hb with rfl | rfl <;> exact ⟨by decide, by decide, by decide⟩
    have hobs : [line_999_65_1, line_1_2_1, line_999_65_1, line_3_4_0].map FileLine.observe =
        fontSource [Block.mk 65 [Stroke.mk 1 2 1], Block.mk 65 [Stroke.mk 3 4 0]] := by
      simp [FileLine.observe, FileLine.begins999, line_999_65_1, line_1_2_1, line_3_4_0,
        fontSource, Block.lines]
    have hload := readLoop_source _ (fun _ => FontChar.zero) (-1) 0 hvalid
    have hg := loadBlock_glyph
      (loadBlock (fun _ => FontChar.zero) (Block.mk 65 [Stroke.mk 1 2 1]))
      (Block.mk 65 [Stroke.mk 3 4 0])
    have h2 : glyphStrokes (List.foldl loadBlock (fun _ => FontChar.zero)
        [Block.mk 65 [Stroke.mk 1 2 1], Block.mk 65 [Stroke.mk 3 4 0]] 65) =
        [Stroke.mk 3 4 0] := by simpa using hg.2.2
    refine ⟨_, ?_, h2, ?_⟩
    · simp only [readFontFile, Option.map_some', readFontData, hobs]
      exact hload
    · rw [h2]
      simp
  · refine ⟨by decide, rfl, by decide, by decide, by decide, ?_⟩
    intro p hp
    simp only [List.mem_cons, List.mem_singleton, List.not_mem_nil, or_false] at hp
    rcases hp with rfl | rfl <;> rfl
  · refine ⟨strokeWrite (headerWrite (headerWrite (fun _ => FontChar.zero) 65 2) 0 1) 0 0 5 6 1,
      ?_, ?_, ?_, ?_, ?_⟩
    · simp [readFontFile, FileLine.observe, FileLine.begins999, line_999_65_2, line_999_0_1,
        line_5_6_1, readFontData, readLoop, fontAt, writeFont, writeSlot, strokeWrite,
        headerWrite, FontChar.zero]
    · simp [strokeWrite, headerWrite]
    · simp [glyphStrokes, strokeWrite, headerWrite, FontChar.zero, List.range, List.range.loop]
    · simp [glyphStrokes, strokeWrite, headerWrite, FontChar.zero, List.range, List.range.loop]
    · simp [glyphStrokes, strokeWrite, headerWrite, FontChar.zero, List.range, List.range.loop]
  · refine ⟨by decide, rfl, by decide, by decide, by decide, ?_⟩
    intro p hp
    simp only [List.mem_singleton] at hp
    subst hp
    rfl
  · refine ⟨headerWrite (fun _ => FontChar.zero) 65 1, ?_⟩
    simp [readFontFile, FileLine.observe, FileLine.begins999, line_999_65_1, line_999p5_0_1,
      readFontData, readLoop, fontAt, writeFont, headerWrite, FontChar.zero]
  · refine ⟨strokeWrite (headerWrite (fun _ => FontChar.zero) 65 2) 65 0 1 2 1, ?_⟩
    have h1 : line_999_65_2.observe = Line.header 65 2 := by
      simp [FileLine.observe, FileLine.begins999, line_999_65_2]
    have h2 : line_1_2_1_long_head.observe = Line.stroke 1 2 1 := by
      have hb : line_1_2_1_long_head.begins999 = false := by rfl
      have hs : line_1_2_1_long_head.strokeScan = some (1, 2, 1) := rfl
      simp only [FileLine.observe, hb, hs]
      rfl
    have h3 : line_long_tail.observe = Line.other := by
      have hb : line_long_tail.begins999 = false := by rfl
      have hs : line_long_tail.strokeScan = none := rfl
      simp only [FileLine.observe, hb, hs]
      rfl
    have h4 : line_3_4_0.observe = Line.stroke 3 4 0 := by
      simp [FileLine.observe, FileLine.begins999, line_3_4_0]
    simp only [readFontFile, Option.map_some', List.map_cons, List.map_nil, h1, h2, h3, h4]
    simp [readFontData, readLoop, fontAt, writeFont, writeSlot, strokeWrite, headerWrite,
      FontChar.zero]

/-- Claim C10, amended. Font load round trip: for every valid font source (a
sequence of blocks, each a header line `999 code count` with `0 ≤ code ≤ 127` and
`count ≤ 50` followed by exactly `count` stroke lines `x y pen`) in which every
line has at most 254 characters, so that `fgets` returns it whole, and no stroke
line begins with the characters `999`, `readFontData` returns 1 and, for every
block that is the last one declaring its code, the loaded glyph has
`asciiCode = code`, `strokeCount = count`, and its strokes `(x[i], y[i], draw[i])`,
`i < count`, are the stroke records of that block in order. -/
theorem font_load_round_trip (blocks : List FileBlock) (font : FontTable)
    (hvalid : ∀ fb ∈ blocks, fb.Valid) (_hwhole : ∀ fb ∈ blocks, fb.LinesWhole)
    (hclear : ∀ fb ∈ blocks, fb.StrokesClear) :
    ∃ font', readFontFile (some (blocks.flatMap FileBlock.lines)) font = some (1, font') ∧
      ∀ (pre post : List FileBlock) (fb : FileBlock), blocks = pre ++ fb :: post →
        (∀ fb' ∈ post, fb'.code ≠ fb.code) →
        (font' fb.code.toNat).asciiCode = fb.code ∧
        (font' fb.code.toNat).strokeCount = fb.strokes.length ∧
        glyphStrokes (font' fb.code.toNat) = fb.records := by
  have hblocks : ∀ b ∈ blocks.map fileBlock_block, ValidBlock b := by
    intro b hb
    obtain ⟨fb, hfb, rfl⟩ := List.mem_map.mp hb
    obtain ⟨_, _, h0, h1, hmax, _⟩ := hvalid fb hfb
    exact ⟨h0, h1, by simpa [fileBlock_block, FileBlock.records] using hmax⟩
  obtain ⟨font', hload, hglyph⟩ := blocks_load_last_wins (blocks.map fileBlock_block) font hblocks
  refine ⟨font', ?_, ?_⟩
  · simp only [readFontFile, Option.map_some']
    rw [observe_source blocks hvalid hclear]
    exact hload
  · intro pre post fb hsplit hlast
    have := hglyph (pre.map fileBlock_block) (post.map fileBlock_block) (fileBlock_block fb)
      (by rw [hsplit]; simp)
      (by
        intro b' hb'
        obtain ⟨fb', hfb', rfl⟩ := List.mem_map.mp hb'
        exact hlast fb' hfb')
    simpa [fileBlock_block, FileBlock.records] using this

/-- Witness of claim C10, amended: the source of the letter A, the lines
`999 65 3`, `0 0 0`, `9 18 1`, `18 0 1`, loaded into the zeroed table. -/
theorem font_load_round_trip_witness :
    ∃ font', readFontFile (some [line_999_65_3, line_0_0_0, line_9_18_1, line_18_0_1])
        (fun _ => FontChar.zero) = some (1, font') ∧
      (font' 65).strokeCount = 3 ∧
      glyphStrokes (font' 65) = [Stroke.mk 0 0 0, Stroke.mk 9 18 1, Stroke.mk 18 0 1] := by
  obtain ⟨font', hload, hglyph⟩ := font_load_round_trip
    [FileBlock.mk 65 line_999_65_3
      [(Stroke.mk 0 0 0, line_0_0_0), (Stroke.mk 9 18 1, line_9_18_1),
        (Stroke.mk 18 0 1, line_18_0_1)]]
    (fun _ => FontChar.zero)
    (by
      intro fb hfb
      simp only [List.mem_singleton] at hfb
      subst hfb
      refine ⟨by decide, rfl, by decide, by decide, by decide, ?_⟩
      intro p hp
      simp only [List.mem_cons, List.mem_singleton, List.not_mem_nil, or_false] at hp
      rcases hp with rfl | rfl | rfl <;> rfl)
    (by
      intro fb hfb
      simp only [List.mem_singleton] at hfb
      subst hfb
      refine ⟨by decide, ?_⟩
      intro p hp
      simp only [List.mem_cons, List.mem_singleton, List.not_mem_nil, or_false] at hp
      rcases hp with rfl | rfl | rfl <;> decide)
    (by
      intro fb hfb
      simp only [List.mem_singleton] at hfb
      subst hfb
      intro p hp
      simp only [List.mem_cons, List.mem_singleton, List.not_mem_nil, or_false] at hp
      rcases hp with rfl | rfl | rfl <;> decide)
  have hg := hglyph [] [] _ rfl (by simp)
  exact ⟨font', by simpa [FileBlock.lines] using hload, by simpa using hg.2.1,
    by simpa [FileBlock.records] using hg.2.2⟩

/-- Claim C11, behaviour of the code at the failing input: a header whose
character code is 128 or more, or negative, is not rejected; the loop writes
`fontDataArray[currentChar]` outside the table of 128 entries, so the run has no
defined result and in particular does not return 0. -/
theorem header_code_outside_table_is_written :
    (∀ (n : Nat) (count : Int) (rest : List Line) (font : FontTable),
      readFontData (some (Line.header (128 + n) count :: rest)) font = none ∧
      readFontData (some (Line.header (-1 - n) count :: rest)) font = none) ∧
    writeFont (fun _ => FontChar.zero) 200 FontChar.zero = none ∧
    readFontData (some [Line.header 65 1, Line.stroke 0 0 1, Line.header 200 1,
      Line.stroke 9 18 1]) (fun _ => FontChar.zero) = none := by
  refine ⟨fun n count rest font => ⟨?_, ?_⟩, by simp [writeFont], ?_⟩
  · exact readLoop_header_outside _ count rest font (-1) 0 (by omega)
  · exact readLoop_header_outside _ count rest font (-1) 0 (by omega)
  · have hb : ValidBlock (Block.mk 65 [Stroke.mk 0 0 1]) := ⟨by decide, by decide, by decide⟩
    have h1 := readLoop_block (Block.mk 65 [Stroke.mk 0 0 1])
      [Line.header 200 1, Line.stroke 9 18 1] (fun _ => FontChar.zero) (-1) 0 hb
    simp only [Block.lines, List.map_cons, List.map_nil, List.cons_append, List.nil_append,
      List.length_singleton, Nat.cast_one] at h1
    simp only [readFontData]
    rw [h1]
    exact readLoop_header_outside 200 1 _ _ _ _ (by omega)

/-- Counterexample to claim C12 as stated: a source with a stroke line before any
header and a stroke line after the single declared stroke of glyph 65 has been
consumed. `readFontData` returns 1; glyph 65 holds its declared stroke (3,4,0). -/
theorem font_load_stray_strokes_counterexample :
    ∃ font', readFontData
        (some [Line.stroke 1 2 1, Line.header 65 1, Line.stroke 3 4 0, Line.stroke 5 6 1])
        (fun _ => FontChar.zero) = some (1, font') ∧
      (font' 65).strokeCount = 1 ∧
      glyphStrokes (font' 65) = [Stroke.mk 3 4 0] := by
  have hb : ValidBlock (Block.mk 65 [Stroke.mk 3 4 0]) := ⟨by decide, by decide, by decide⟩
  have h1 := readLoop_skip [Line.stroke 1 2 1] [Line.header 65 1, Line.stroke 3 4 0,
    Line.stroke 5 6 1] (fun _ => FontChar.zero) (-1) 0 (by simp [Line.plain]) (Or.inl rfl)
  have h2 := readLoop_block (Block.mk 65 [Stroke.mk 3 4 0]) [Line.stroke 5 6 1]
    (fun _ => FontChar.zero) (-1) 0 hb
  have h3 := readLoop_skip [Line.stroke 5 6 1] []
    (loadBlock (fun _ => FontChar.zero) (Block.mk 65 [Stroke.mk 3 4 0])) 65 0
    (by simp [Line.plain]) (Or.inr (le_refl 0))
  simp only [Block.lines, List.map_cons, List.map_nil, List.cons_append, List.nil_append,
    List.length_singleton, Nat.cast_one, List.singleton_append] at h1 h2 h3
  have hg := loadBlock_glyph (fun _ => FontChar.zero) (Block.mk 65 [Stroke.mk 3 4 0])
  refine ⟨loadBlock (fun _ => FontChar.zero) (Block.mk 65 [Stroke.mk 3 4 0]), ?_, ?_, ?_⟩
  · simp only [readFontData]
    rw [h1, h2, h3]
    rfl
  · simpa using hg.2.1
  · simpa using hg.2.2

/-- Claim C12, amended. `readFontData` does not fail on lines lying outside the
declared blocks: lines that do not begin with `999` and stand before any header,
or after a block whose declared strokes have all been consumed, are skipped, and
the load returns 1 with the table of the source without those lines. -/
theorem stray_lines_are_skipped (blocks blocks' : List Block) (extras : List Line)
    (font : FontTable) (h : ∀ b ∈ blocks, ValidBlock b) (h' : ∀ b ∈ blocks', ValidBlock b)
    (hex : ∀ l ∈ extras, l.plain) :
    readFontData (some (fontSource blocks ++ extras ++ fontSource blocks')) font =
        some (1, (blocks ++ blocks').foldl loadBlock font) ∧
    readFontData (some (fontSource blocks ++ extras ++ fontSource blocks')) font =
        readFontData (some (fontSource (blocks ++ blocks'))) font := by
  have hall : ∀ b ∈ blocks ++ blocks', ValidBlock b := by
    intro b hb
    rcases List.mem_append.mp hb with hb | hb
    · exact h b hb
    · exact h' b hb
  have hright : readFontData (some (fontSource (blocks ++ blocks'))) font =
      some (1, (blocks ++ blocks').foldl loadBlock font) := by
    simp only [readFontData]
    exact readLoop_source _ font (-1) 0 hall
  have hleft : readFontData (some (fontSource blocks ++ extras ++ fontSource blocks')) font =
      some (1, (blocks ++ blocks').foldl loadBlock font) := by
    obtain ⟨cc', hcc'⟩ := readLoop_blocks_then blocks font (-1) h
    simp only [readFontData, List.append_assoc]
    rw [hcc' (extras ++ fontSource blocks'),
      readLoop_skip extras _ _ cc' 0 hex (Or.inr (le_refl 0)),
      readLoop_source blocks' _ cc' 0 h', List.foldl_append]
  exact ⟨hleft, hleft.trans hright.symm⟩

/-- Witness of claim C12, amended: after the single declared stroke of glyph 65
come a further stroke line and an unparsable line; the load returns 1 with the
table of the block alone. -/
theorem stray_lines_are_skipped_witness :
    readFontData (some (fontSource [Block.mk 65 [Stroke.mk 3 4 0]] ++
        [Line.stroke 5 6 1, Line.other])) (fun _ => FontChar.zero) =
      some (1, [Block.mk 65 [Stroke.mk 3 4 0]].foldl loadBlock (fun _ => FontChar.zero)) := by
  have key := (stray_lines_are_skipped [Block.mk 65 [Stroke.mk 3 4 0]] []
    [Line.stroke 5 6 1, Line.other] (fun _ => FontChar.zero)
    (by
      intro b hb
      simp only [List.mem_singleton] at hb
      subst hb
      exact ⟨by decide, by decide, by decide⟩)
    (by simp)
    (by
      intro l hl
      simp only [List.mem_cons, List.mem_singleton, List.not_mem_nil, or_false] at hl
      rcases hl with rfl | rfl <;> simp [Line.plain])).1
  simpa [fontSource] using key

/-- Counterexample to claim C13 as stated: the header of glyph 65 declares 3
strokes and the source ends after one record. `readFontData` returns 1; the glyph
has `strokeCount = 3`, slot 0 holds the record and slots 1 and 2 were never
written (they still hold the zeros of the initial table). -/
theorem font_load_partial_glyph_counterexample :
    ∃ font', readFontData (some [Line.header 65 3, Line.stroke 1 2 1])
        (fun _ => FontChar.zero) = some (1, font') ∧
      (font' 65).strokeCount = 3 ∧
      glyphStrokes (font' 65) = [Stroke.mk 1 2 1, Stroke.mk 0 0 0, Stroke.mk 0 0 0] := by
  refine ⟨strokeWrite (headerWrite (fun _ => FontChar.zero) 65 3) 65 0 1 2 1, ?_, ?_, ?_⟩
  · simp [readFontData, readLoop, fontAt, writeFont, writeSlot, strokeWrite, headerWrite,
      FontChar.zero]
  · simp [strokeWrite, headerWrite]
  · simp [glyphStrokes, strokeWrite, headerWrite, FontChar.zero, List.range, List.range.loop]

/-- Claim C13, amended. `readFontData` returns 1 also when the source ends, or
starts the next header, before the declared strokes of a glyph have all been read:
for a header `999 c n` followed by `k ≤ n` stroke records and then by further
valid blocks or the end of the source, the glyph (unless declared again later) has
`strokeCount = n`, its slots `0 .. k-1` hold the `k` records in order and the slots
from `k` on keep their previous content. The glyph is fully populated when `k = n`. -/
theorem partial_glyph_still_loads (pre post : List Block) (c : Int) (n : Nat)
    (ts : List Stroke) (font : FontTable)
    (hpre : ∀ b ∈ pre, ValidBlock b) (hpost : ∀ b ∈ post, ValidBlock b)
    (h0 : 0 ≤ c) (h1 : c ≤ 127) (hk : ts.length ≤ n) (hn : n ≤ MAX_STROKES) :
    ∃ font', readFontData (some (fontSource pre ++
          (Line.header c n :: ts.map (fun t => Line.stroke t.x t.y t.pen)) ++
          fontSource post)) font = some (1, font') ∧
      ((∀ b ∈ post, b.code ≠ c) →
        (font' c.toNat).strokeCount = n ∧
        (List.range ts.length).map (fun i =>
          ({ x := (font' c.toNat).x i, y := (font' c.toNat).y i,
             pen := (font' c.toNat).draw i } : Stroke)) = ts ∧
        ∀ j, ts.length ≤ j →
          (font' c.toNat).x j = (pre.foldl loadBlock font c.toNat).x j ∧
          (font' c.toNat).y j = (pre.foldl loadBlock font c.toNat).y j ∧
          (font' c.toNat).draw j = (pre.foldl loadBlock font c.toNat).draw j) := by
  obtain ⟨cc', hcc'⟩ := readLoop_blocks_then pre font (-1) hpre
  obtain ⟨m, hm⟩ : ∃ m : Nat, n = ts.length + m := ⟨n - ts.length, by omega⟩
  subst hm
  have hfa : fontAt (pre.foldl loadBlock font) c = some (pre.foldl loadBlock font c.toNat) :=
    fontAt_eq _ c h0 (by simp; omega)
  have hstrokes := readLoop_strokes_partial ts (fontSource post)
    (headerWrite (pre.foldl loadBlock font) c ((ts.length + m : Nat) : Int)) c 0 m h0 h1
    (by simp [headerWrite]) (by simp; omega)
  refine ⟨post.foldl loadBlock (Function.update
    (headerWrite (pre.foldl loadBlock font) c ((ts.length + m : Nat) : Int))
    c.toNat (storeStrokes
      (headerWrite (pre.foldl loadBlock font) c ((ts.length + m : Nat) : Int) c.toNat) 0 ts)),
    ?_, ?_⟩
  · simp only [readFontData, List.append_assoc]
    rw [hcc']
    simp only [List.cons_append, readLoop, hfa, Option.bind_eq_bind, Option.some_bind,
      writeFont_eq _ c _ h0 h1, List.append_eq]
    have hw : Function.update (pre.foldl loadBlock font) c.toNat
        { pre.foldl loadBlock font c.toNat with
          asciiCode := c, strokeCount := ((ts.length + m : Nat) : Int) } =
        headerWrite (pre.foldl loadBlock font) c ((ts.length + m : Nat) : Int) := by
      simp [headerWrite]
    rw [hw, hstrokes]
    exact readLoop_source post _ c m hpost
  · intro hlast
    have hother : ∀ b ∈ post, b.code.toNat ≠ c.toNat := by
      intro b hb heq
      apply hlast b hb
      have := (hpost b hb).1
      omega
    rw [foldl_loadBlock_other post _ c.toNat hother]
    simp only [Function.update_same]
    have hsc := storeStrokes_strokeCount
      (headerWrite (pre.foldl loadBlock font) c ((ts.length + m : Nat) : Int) c.toNat) 0 ts
    have hrb := storeStrokes_readback
      (headerWrite (pre.foldl loadBlock font) c ((ts.length + m : Nat) : Int) c.toNat) 0 ts
    refine ⟨by rw [hsc.1]; simp [headerWrite], by simpa [List.range_eq_range'] using hrb, ?_⟩
    intro j hj
    obtain ⟨hx, hy, hd⟩ := storeStrokes_above
      (headerWrite (pre.foldl loadBlock font) c ((ts.length + m : Nat) : Int) c.toNat) 0 ts j
      (by omega)
    rw [hx, hy, hd]
    simp [headerWrite]

/-- Witness of claim C13, amended: header `999 65 3` followed by one record and
then by the block of glyph 66; the load returns 1 and glyph 65 has
`strokeCount = 3` with slot 0 holding the record. -/
theorem partial_glyph_still_loads_witness :
    ∃ font', readFontData (some [Line.header 65 3, Line.stroke 1 2 1, Line.header 66 1,
        Line.stroke 0 0 0]) (fun _ => FontChar.zero) = some (1, font') ∧
      (font' 65).strokeCount = 3 ∧ (font' 65).x 0 = 1 ∧ (font' 65).y 0 = 2 ∧
      (font' 65).draw 0 = 1 ∧ (font' 65).x 1 = 0 := by
  obtain ⟨font', hload, hglyph⟩ := partial_glyph_still_loads [] [Block.mk 66 [Stroke.mk 0 0 0]]
    65 3 [Stroke.mk 1 2 1] (fun _ => FontChar.zero) (by simp)
    (by
      intro b hb
      simp only [List.mem_singleton] at hb
      subst hb
      exact ⟨by decide, by decide, by decide⟩)
    (by decide) (by decide) (by simp) (by decide)
  obtain ⟨hsc, hrb, habove⟩ := hglyph (by
    intro b hb
    simp only [List.mem_singleton] at hb
    subst hb
    decide)
  have h1 := (habove 1 (by simp)).1
  simp [List.range, List.range.loop] at hrb
  refine ⟨font', by simpa [fontSource, Block.lines] using hload, by simpa using hsc, ?_, ?_, ?_, ?_⟩
  · simpa using hrb.1
  · simpa using hrb.2.1
  · simpa using hrb.2.2
  · simpa [FontChar.zero] using h1

/-- Claim C14, behaviour of the code at the failing input: `Refactored` has no
wrap test. With the glyph of width 60 mm at scale 1/2 (a scale inside
[4/18, 10/18], non-negative advance), after two words the cursor is at X = 127 on
the unchanged baseline -14, and the third word starts being placed at X = 127,
beyond the line width 100; `Skeleton` on the same two words ends on the baseline
-28 after a wrap. -/
theorem refactored_places_word_beyond_line_width :
    ((4 : ℚ) / 18 ≤ 1 / 2 ∧ (1 : ℚ) / 2 ≤ 10 / 18) ∧
    Refactored.wordsLoop fontWide (1 / 2) [[87], [87]] (Refactored.startCursor (1 / 2)) =
      some ([[Instr.S 0, Instr.G 0 0 (-14)], [Instr.S 1000, Instr.G 1 (239 / 4) (-5)],
          [Instr.S 0, Instr.G 0 (127 / 2) (-14)], [Instr.S 1000, Instr.G 1 (493 / 4) (-5)]],
        { x_offset := 127, y_offset := -14 }) ∧
    Refactored.generateGCodeForText fontWide (some [[87], [87], [87]]) (1 / 2) =
      some [[Instr.S 0, Instr.G 0 0 (-14)], [Instr.S 1000, Instr.G 1 (239 / 4) (-5)],
        [Instr.S 0, Instr.G 0 (127 / 2) (-14)], [Instr.S 1000, Instr.G 1 (493 / 4) (-5)],
        [Instr.S 0, Instr.G 0 127 (-14)], [Instr.S 1000, Instr.G 1 (747 / 4) (-5)],
        [Instr.S 0, Instr.G 0 0 0]] ∧
    Skeleton.wordsLoop fontWide (1 / 2) [[87], [87]] (Skeleton.startCursor (1 / 2)) =
      some ([[Instr.S 0, Instr.G 0 0 (-14)], [Instr.S 1000, Instr.G 1 (239 / 4) (-5)],
          [Instr.S 0, Instr.G 0 0 (-28)], [Instr.S 1000, Instr.G 1 (239 / 4) (-19)]],
        { x_offset := 127 / 2, y_offset := -28 }) := by
  refine ⟨by norm_num, ?_, ?_, ?_⟩
  · simp [Refactored.wordsLoop, Refactored.generateWordGCode, Refactored.wordChars,
      Refactored.processCharacterCoordinates, Refactored.startCursor, strokeLoop, strokeAt, lastX,
      readSlot, fontAt, fontWide, glyphWide, strokeBuffer, CHARACTER_SPACING, WORD_SPACING]
    norm_num
  · simp [Refactored.generateGCodeForText, Refactored.wordsLoop, Refactored.generateWordGCode,
      Refactored.wordChars, Refactored.processCharacterCoordinates, Refactored.startCursor,
      strokeLoop, strokeAt, lastX, readSlot, fontAt, fontWide, glyphWide, strokeBuffer, finalGcode,
      CHARACTER_SPACING, WORD_SPACING]
    norm_num
  · simp [Skeleton.wordsLoop, Skeleton.wordBody, Skeleton.wordWidthLoop, Skeleton.charLoop,
      Skeleton.wrapCheck, Skeleton.startCursor, strokeLoop, strokeAt, lastX, readSlot, fontAt,
      fontWide, glyphWide, strokeBuffer, LINE_WIDTH, CHARACTER_SPACING, WORD_SPACING]
    norm_num

/-- Claim C15. For an empty word stream, for every font and scale, the output of
both versions is exactly the single final buffer `S0`, `G0 X0.00 Y0.00`, whether
the stream is given as the strings held in `word` or as the tokens of the file. -/
theorem empty_stream_gives_final_buffer_only (font : FontTable) (s : ℚ) :
    Skeleton.generateGCodeForText font (some []) s = some [[Instr.S 0, Instr.G 0 0 0]] ∧
    Refactored.generateGCodeForText font (some []) s = some [[Instr.S 0, Instr.G 0 0 0]] ∧
    Skeleton.generateGCodeForTokens font (some []) s = some [[Instr.S 0, Instr.G 0 0 0]] ∧
    Refactored.generateGCodeForTokens font (some []) s = some [[Instr.S 0, Instr.G 0 0 0]] := by
  refine ⟨?_, ?_, ?_, ?_⟩
  · simp [Skeleton.generateGCodeForText, Skeleton.wordsLoop, finalGcode]
  · simp [Refactored.generateGCodeForText, Refactored.wordsLoop, finalGcode]
  · simp [Skeleton.generateGCodeForTokens, fscanfWords, Skeleton.generateGCodeForText,
      Skeleton.wordsLoop, finalGcode]
  · simp [Refactored.generateGCodeForTokens, fscanfWords, Refactored.generateGCodeForText,
      Refactored.wordsLoop, finalGcode]

/-- Claim C16, behaviour of the code at the failing input: a token of 100
characters does not fit, with its terminating NUL, in `char word[100]`; `fscanf`
writes outside the array before the length test runs, so in both versions the run
on any file containing the token has no defined result. The length test alone, on
a string of 100 characters held in `word`, would skip it and leave the cursor. -/
theorem long_token_overflows_word_buffer :
    fscanfWord (List.replicate 100 65) = none ∧
    (∀ (font : FontTable) (s : ℚ) (pre post : List Word),
      Skeleton.generateGCodeForTokens font (some (pre ++ List.replicate 100 65 :: post)) s = none ∧
      Refactored.generateGCodeForTokens font (some (pre ++ List.replicate 100 65 :: post)) s
        = none) ∧
    (∀ (font : FontTable) (s : ℚ) (cur : Cursor),
      Skeleton.wordBody font s (List.replicate 100 65) cur = some ([], cur)) := by
  have h : fscanfWord (List.replicate 100 65) = none := by
    simp [fscanfWord]
  refine ⟨h, fun font s pre post => ⟨?_, ?_⟩, fun font s cur => ?_⟩
  · simp only [Skeleton.generateGCodeForTokens, fscanfWords_overflow pre post _ h]
    rfl
  · simp only [Refactored.generateGCodeForTokens, fscanfWords_overflow pre post _ h]
    rfl
  · simp [Skeleton.wordBody]

/-- Counterexample to claim C17 as stated: a NaN stored by `scanf` passes both
comparisons of line 45, so `validateHeight` returns 1 although `4 ≤ h ≤ 10` does
not hold; and for the height 10 the scaling factor is the `float` quotient
2330169/4194304, which is not 10/18 and lies above 10/18. -/
theorem height_validation_counterexample :
    Refactored.validateHeight CFloat.nan = (1, CFloat.nan) ∧
    Refactored.validateHeight (CFloat.finite 10) = (1, CFloat.finite (2330169 / 4194304)) ∧
    (2330169 / 4194304 : ℚ) ≠ 10 / 18 ∧
    (10 / 18 : ℚ) < 2330169 / 4194304 := by
  refine ⟨?_, ?_, by norm_num, by norm_num⟩
  · simp [Refactored.validateHeight, CFloat.lt, CFloat.div]
  · simp only [Refactored.validateHeight, CFloat.lt, CFloat.div]
    rw [roundToFloat_ten_eighteenths]
    norm_num

/-- Claim C17, amended. Height validation on `float` values: for every entered
finite height `h`, `validateHeight` returns 1 if and only if `4 ≤ h ≤ 10`; on
success the scaling factor is the `float` nearest to `h / 18`, a finite value
within `2 ^ -25` of `h / 18` and so within `2 ^ -25` of the interval [4/18, 10/18],
and it is the scale with which `main`, in both files, calls the layout; on
failure, also for an infinite height, the value is left undivided and `main`, in
both files, returns 1 without calling the layout. -/
theorem height_validation (h : ℚ) :
    ((Refactored.validateHeight (CFloat.finite h)).1 = 1 ↔ 4 ≤ h ∧ h ≤ 10) ∧
    (4 ≤ h ∧ h ≤ 10 →
      ∃ r : ℚ, Refactored.validateHeight (CFloat.finite h) = (1, CFloat.finite r) ∧
        roundToFloat (h / 18) = CFloat.finite r ∧
        |r - h / 18| ≤ 1 / 2 ^ 25 ∧ 4 / 18 - 1 / 2 ^ 25 ≤ r ∧ r ≤ 10 / 18 + 1 / 2 ^ 25 ∧
        ∀ (fontFile : Option (List Line)) (font : FontTable),
          readFontData fontFile (fun _ => FontChar.zero) = some (1, font) →
          Refactored.main (CFloat.finite h) fontFile =
              some (MainResult.layout font (CFloat.finite r)) ∧
            Skeleton.main (CFloat.finite h) fontFile =
              some (MainResult.layout font (CFloat.finite r))) ∧
    (¬ (4 ≤ h ∧ h ≤ 10) →
      Refactored.validateHeight (CFloat.finite h) = (0, CFloat.finite h) ∧
      ∀ (fontFile : Option (List Line)),
        Refactored.main (CFloat.finite h) fontFile = some MainResult.exitNoLayout ∧
        Skeleton.main (CFloat.finite h) fontFile = some MainResult.exitNoLayout) ∧
    (∀ (negative : Bool),
      Refactored.validateHeight (CFloat.infinity negative) = (0, CFloat.infinity negative) ∧
      ∀ (fontFile : Option (List Line)),
        Refactored.main (CFloat.infinity negative) fontFile = some MainResult.exitNoLayout ∧
        Skeleton.main (CFloat.infinity negative) fontFile = some MainResult.exitNoLayout) := by
  have hinf : ∀ (negative : Bool),
      Refactored.validateHeight (CFloat.infinity negative) = (0, CFloat.infinity negative) ∧
      ∀ (fontFile : Option (List Line)),
        Refactored.main (CFloat.infinity negative) fontFile = some MainResult.exitNoLayout ∧
        Skeleton.main (CFloat.infinity negative) fontFile = some MainResult.exitNoLayout := by
    intro negative
    cases negative <;>
      simp [Refactored.validateHeight, Refactored.main, Skeleton.main, CFloat.lt]
  by_cases hr : 4 ≤ h ∧ h ≤ 10
  · have hcond : (CFloat.lt (CFloat.finite h) (CFloat.finite 4) ||
        CFloat.lt (CFloat.finite 10) (CFloat.finite h)) = false := by
      simp [CFloat.lt, hr.1, hr.2]
    obtain ⟨r, hround, herr⟩ := roundToFloat_unit (h / 18)
      (by have := hr.1; linarith) (by have := hr.2; linarith)
    have hv : Refactored.validateHeight (CFloat.finite h) = (1, CFloat.finite r) := by
      simp only [Refactored.validateHeight, hcond, CFloat.div]
      rw [if_neg (by norm_num : ¬ ((18 : ℚ) = 0)), hround]
      simp
    have hb := abs_le.mp herr
    refine ⟨by simp [hv, hr], fun _ => ⟨r, hv, hround, herr, ?_, ?_, ?_⟩,
      fun hn => absurd hr hn, hinf⟩
    · have := hr.1
      linarith
    · have := hr.2
      linarith
    · intro fontFile font hfont
      constructor
      · simp [Refactored.main, hv, hfont]
      · simp only [Skeleton.main, hcond, hfont, CFloat.div]
        rw [if_neg (by norm_num : ¬ ((18 : ℚ) = 0)), hround]
        simp
  · have hcond : (CFloat.lt (CFloat.finite h) (CFloat.finite 4) ||
        CFloat.lt (CFloat.finite 10) (CFloat.finite h)) = true := by
      simp only [CFloat.lt, Bool.or_eq_true, decide_eq_true_eq]
      by_contra hc
      apply hr
      constructor
      · exact not_lt.mp (fun h4 => hc (Or.inl h4))
      · exact not_lt.mp (fun h10 => hc (Or.inr h10))
    have hv : Refactored.validateHeight (CFloat.finite h) = (0, CFloat.finite h) := by
      simp only [Refactored.validateHeight, hcond]
      simp
    refine ⟨by simp [hv, hr], fun hy => absurd hy hr, fun _ => ⟨hv, fun fontFile => ?_⟩, hinf⟩
    constructor
    · simp [Refactored.main, hv]
    · simp only [Skeleton.main, hcond]
      simp

/-- Witness of claim C17, amended: the height 9 is accepted with a finite scale
within `2 ^ -25` of 9/18, and with the height 11 `main` of Refactored returns 1
without calling the layout. -/
theorem height_validation_witness :
    (∃ r : ℚ, Refactored.validateHeight (CFloat.finite 9) = (1, CFloat.finite r) ∧
      |r - 9 / 18| ≤ 1 / 2 ^ 25) ∧
    Refactored.main (CFloat.finite 11) (some []) = some MainResult.exitNoLayout := by
  obtain ⟨r, hv, _, herr, _⟩ := (height_validation 9).2.1 (by norm_num)
  exact ⟨⟨r, hv, herr⟩, (((height_validation 11).2.2.1 (by norm_num)).2 (some [])).1⟩

/-- Claim C18. In `Skeleton`, on a word that stays inside the arrays, the width
computed for the wrap test, the sum over its characters of
`advance * scale + 0.5 * scale`, equals the amount by which the placement loop
advances `cursorX` over the characters: after the last character `cursorX` is its
value at the start of the word plus `wordWidth` (the word gap `7 * scale` is added
after), and the baseline is unchanged. -/
theorem word_width_equals_cursor_advance (font : FontTable) (s : ℚ) (w : Word) (cur : Cursor)
    (hword : WordOK font w) :
    ∃ (wordWidth : ℚ) (out : List Buffer) (cur' : Cursor),
      Skeleton.wordWidthLoop font s w 0 = some wordWidth ∧
      wordWidth = (w.map (fun c =>
        (font c.toNat).x ((font c.toNat).strokeCount - 1).toNat * s + 1 / 2 * s)).sum ∧
      Skeleton.charLoop font s w cur = some (out, cur') ∧
      cur'.x_offset = cur.x_offset + wordWidth ∧
      cur'.y_offset = cur.y_offset := by
  refine ⟨wordAdvance font s w, _, _, by simpa using skel_wordWidthLoop_eq font s w 0 hword, ?_,
    skel_charLoop_eq font s w cur hword, rfl, rfl⟩
  simp only [wordAdvance, advance, CHARACTER_SPACING]
  congr 1
  apply List.map_congr_left
  intro c _
  ring

/-- Witness of claim C18: the word "AA" at scale 1/2; each A has width
18 / 2 + 0.25 = 9.25, the word width is 18.5 and the cursor goes from 3 to 21.5. -/
theorem word_width_equals_cursor_advance_witness :
    Skeleton.wordWidthLoop fontA (1 / 2) [65, 65] 0 = some (37 / 2) ∧
    ∃ out, Skeleton.charLoop fontA (1 / 2) [65, 65] { x_offset := 3, y_offset := -14 } =
      some (out, { x_offset := 43 / 2, y_offset := -14 }) := by
  have hword : WordOK fontA [65, 65] := by
    simp [WordOK, GlyphOK, fontA, glyphA]
  obtain ⟨ww, out, cur', hw, hsum, hc, hx, hy⟩ :=
    word_width_equals_cursor_advance fontA (1 / 2) [65, 65] { x_offset := 3, y_offset := -14 }
      hword
  have hval : ww = 37 / 2 := by
    rw [hsum]
    simp [fontA, glyphA]
    norm_num
  subst hval
  refine ⟨hw, out, hc.trans ?_⟩
  obtain ⟨cx, cy⟩ := cur'
  simp only at hx hy
  subst hx hy
  norm_num

/-- Claim C19. Index safety of the font loader: for every font source in which
each header declares `0 ≤ characterCode ≤ 127` and `0 ≤ strokeCount ≤ 50`,
`readFontData` never leaves the table or a stroke array (it returns 0 or 1). The
loop invariant `0 ≤ numStrokes ≤ strokeCount ≤ 50` of the current glyph holds at
the start and is kept by every iteration: a header sets it up with the next stroke
index `strokeCount - numStrokes = 0`; a stroke write uses
`strokeIndex = strokeCount - numStrokes` with `0 ≤ strokeIndex < strokeCount ≤ 50`,
decrements `numStrokes` and so moves the next index to `strokeIndex + 1`; every
other line without `999` writes nothing. -/
theorem loader_index_safety (lines : List Line) (font : FontTable)
    (hvalid : ∀ code count, Line.header code count ∈ lines →
      0 ≤ code ∧ code ≤ 127 ∧ 0 ≤ count ∧ count ≤ 50) :
    (∃ r font', readFontData (some lines) font = some (r, font') ∧ (r = 0 ∨ r = 1)) ∧
    LoaderInv font (-1) 0 ∧
    (∀ (f : FontTable) (cc ns code count : Int) (rest : List Line),
      0 ≤ code → code ≤ 127 → 0 ≤ count → count ≤ 50 →
      readLoop (Line.header code count :: rest) f cc ns =
          readLoop rest (headerWrite f code count) code count ∧
        LoaderInv (headerWrite f code count) code count ∧
        (headerWrite f code count code.toNat).strokeCount - count = 0) ∧
    (∀ (f : FontTable) (cc ns : Int) (x y : ℚ) (pen : Int) (rest : List Line),
      LoaderInv f cc ns → cc ≠ -1 → ns > 0 →
      0 ≤ (f cc.toNat).strokeCount - ns ∧
        (f cc.toNat).strokeCount - ns < (f cc.toNat).strokeCount ∧
        (f cc.toNat).strokeCount ≤ 50 ∧
        readLoop (Line.stroke x y pen :: rest) f cc ns =
          readLoop rest (strokeWrite f cc ((f cc.toNat).strokeCount - ns).toNat x y pen) cc
            (ns - 1) ∧
        LoaderInv (strokeWrite f cc ((f cc.toNat).strokeCount - ns).toNat x y pen) cc (ns - 1) ∧
        (strokeWrite f cc ((f cc.toNat).strokeCount - ns).toNat x y pen cc.toNat).strokeCount
            - (ns - 1) = ((f cc.toNat).strokeCount - ns) + 1) ∧
    (∀ (f : FontTable) (cc ns : Int) (l : Line) (rest : List Line),
      l.plain → ¬ (cc ≠ -1 ∧ ns > 0) →
      readLoop (l :: rest) f cc ns = readLoop rest f cc ns) := by
  have hinit : LoaderInv font (-1) 0 := Or.inl ⟨rfl, rfl⟩
  refine ⟨?_, hinit, ?_, ?_, ?_⟩
  · simp only [readFontData]
    exact readLoop_defined lines font (-1) 0 hinit hvalid
  · intro f cc ns code count rest h0 h1 hc0 hc1
    exact loader_header_step f cc ns code count rest h0 h1 hc0 hc1
  · intro f cc ns x y pen rest hinv hcc hns
    exact loader_stroke_step f cc ns x y pen rest hinv hcc hns
  · intro f cc ns l rest hl hst
    exact loader_skip_step f cc ns l rest hl hst

/-- Witness of claim C19: a source with a stray stroke line, a header declaring 2
strokes for glyph 65, its two records, and one stroke line too many. -/
theorem loader_index_safety_witness :
    ∃ r font', readFontData (some [Line.stroke 7 7 1, Line.header 65 2, Line.stroke 1 2 1,
        Line.stroke 3 4 0, Line.stroke 5 6 1]) (fun _ => FontChar.zero) = some (r, font') ∧
      (r = 0 ∨ r = 1) := by
  refine (loader_index_safety [Line.stroke 7 7 1, Line.header 65 2, Line.stroke 1 2 1,
    Line.stroke 3 4 0, Line.stroke 5 6 1] (fun _ => FontChar.zero) ?_).1
  intro code count hmem
  simp only [List.mem_cons, List.mem_singleton, List.not_mem_nil, or_false, Line.header.injEq,
    false_or, reduceCtorEq] at hmem
  obtain ⟨rfl, rfl⟩ := hmem
  exact ⟨by decide, by decide, by decide, by decide⟩

end RobotWriter
